import Mathlib

/-!
# Spreadsheet core: cells, their dependency graph, and the sheet

A shallow embedding of `cell.cpp`, `sheet.cpp` and `sheet.h`.

* A `Cell*` is modelled by the position whose table slot owns the cell: a slot receives a
  cell at most once (`Sheet::SetCell` only emplaces under a key that is absent, and no key is
  ever erased from `cells_`), so positions are stable identities.
* `std::unordered_map` and `std::unordered_set` are association lists and lists; the
  iteration order of the source containers is unspecified and no result below depends on it.
* Dereferencing a null or destroyed cell, and unbounded recursion, are undefined behaviour;
  functions that can reach it return `none` (or `Outcome.undefined`).
* `std::string` is a Lean string; the tests on the first character and the length agree with
  the byte-wise tests of the source on every well-formed UTF-8 text.
* The formula parser and evaluator (`ParseFormula`, `FormulaInterface`) are collaborators
  outside these sources and enter as parameters.
-/

namespace Spreadsheet

/-! ## Positions -/

/-- The `Position` of `common.h`: zero-based row and column, both `int`. -/
structure Position where
  row : Int
  col : Int
deriving DecidableEq, Repr

/-- Modelled from the spec: `common.h` is not among the sources; the spec gives 16384 as the
bound on rows. -/
def Position.MAX_ROWS : Int := 16384

/-- Modelled from the spec: `common.h` is not among the sources; the spec gives 16384 as the
bound on columns. -/
def Position.MAX_COLS : Int := 16384

/-- Modelled from the spec: `Position::IsValid` of `common.h`, both components within
`[0, MAX_ROWS)` and `[0, MAX_COLS)`. -/
def Position.IsValid (p : Position) : Bool :=
  decide (0 ≤ p.row) && decide (0 ≤ p.col) &&
    decide (p.row < Position.MAX_ROWS) && decide (p.col < Position.MAX_COLS)

/-- The `Size` of `common.h`. -/
structure Size where
  rows : Int
  cols : Int
deriving DecidableEq, Repr

/-! ## The formula collaborator -/

/-- What a cell uses of a parsed formula (`FormulaInterface`): its canonical expression and
the positions it declares. -/
structure Formula where
  expression : String
  referenced : List Position
deriving DecidableEq, Repr

/-- The result of `FormulaInterface::Evaluate` (a double or a `FormulaError`), produced by
the collaborator and carried here as an uninterpreted code. -/
structure FormulaValue where
  code : Nat
deriving DecidableEq, Repr

/-- The `Cell::Value` variant: a string, or what a formula produced. -/
inductive Value
  | text (s : String)
  | computed (v : FormulaValue)
deriving DecidableEq, Repr

/-! ## Cell contents (`Cell::Impl` and its three subclasses) -/

/-- Modelled from the spec: `FORMULA_SIGN` of `common.h`, the character `=` (0x3D) that
leads a formula in. -/
def FORMULA_SIGN : Char := Char.ofNat 61

/-- Modelled from the spec: `ESCAPE_SIGN` of `common.h`, the apostrophe (0x27) that escapes
a text. -/
def ESCAPE_SIGN : Char := Char.ofNat 39

/-- The three implementations of `Cell::Impl`; `FormulaImpl` carries its `cache_`. -/
inductive Impl
  | EmptyImpl
  | TextImpl (text_ : String)
  | FormulaImpl (formula_ptr_ : Formula) (cache_ : Option FormulaValue)
deriving DecidableEq, Repr

/-- `Impl::GetReferencedCells`: the formula's declared positions, nothing otherwise. -/
def Impl.GetReferencedCells : Impl → List Position
  | .FormulaImpl f _ => f.referenced
  | _ => []

/-- `Impl::IsCacheValid`: `true` by default, `cache_.has_value()` for a formula. -/
def Impl.IsCacheValid : Impl → Bool
  | .FormulaImpl _ cache => cache.isSome
  | _ => true

/-- `Impl::InvalidateCache`: resets `cache_` of a formula, nothing otherwise. -/
def Impl.InvalidateCache : Impl → Impl
  | .FormulaImpl f _ => .FormulaImpl f none
  | i => i

/-- `Impl::GetText`. -/
def Impl.GetText : Impl → String
  | .EmptyImpl => ""
  | .TextImpl t => t
  | .FormulaImpl f _ => String.mk [FORMULA_SIGN] ++ f.expression

/-- `Impl::GetValue`; `evaluated` stands for `formula_ptr_->Evaluate(sheet_)`, consulted only
when the cache is absent. Returns the value and the content with its cache filled. -/
def Impl.GetValue (evaluated : FormulaValue) : Impl → Value × Impl
  | .EmptyImpl => (.text "", .EmptyImpl)
  | .TextImpl t =>
    (.text (if t.data.head? = some ESCAPE_SIGN then String.mk (t.data.drop 1) else t),
      .TextImpl t)
  | .FormulaImpl f cache =>
    let v := cache.getD evaluated
    (.computed v, .FormulaImpl f (some v))

/-- The stored cache of a content, if any. -/
def Impl.cache : Impl → Option FormulaValue
  | .FormulaImpl _ c => c
  | _ => none

/-! ## Cells and the sheet -/

/-- A `Cell`: its content, `referenced_cells_` (the cells it references) and
`dependent_cells_` (the cells that reference it). -/
structure Cell where
  impl_ : Impl
  referenced_cells_ : List Position
  dependent_cells_ : List Position
deriving DecidableEq, Repr

/-- The constructor `Cell::Cell`: empty content, no edges. -/
def Cell.create : Cell := ⟨.EmptyImpl, [], []⟩

/-- An `std::unordered_map` as an association list with at most one entry per key. -/
abbrev UMap (κ ν : Type) := List (κ × ν)

/-- The member `find` of the map: the value stored under `k`, if the key is present. -/
def UMap.find {κ ν : Type} [DecidableEq κ] : UMap κ ν → κ → Option ν
  | [], _ => none
  | (k', v) :: rest, k => if k' = k then some v else UMap.find rest k

/-- Writing `v` under `k`: overwrites the entry when the key is present, inserts otherwise. -/
def UMap.put {κ ν : Type} [DecidableEq κ] : UMap κ ν → κ → ν → UMap κ ν
  | [], k, v => [(k, v)]
  | (k', v') :: rest, k, v =>
    if k' = k then (k', v) :: rest else (k', v') :: UMap.put rest k v

/-- The member `erase` of the map. -/
def UMap.erase {κ ν : Type} [DecidableEq κ] (m : UMap κ ν) (k : κ) : UMap κ ν :=
  m.filter (fun e => decide (e.1 ≠ k))

/-- The type `Sheet::Table`: a slot holds a `unique_ptr<Cell>`, which may be null. -/
abbrev Table := UMap Position (Option Cell)

/-- The cell a pointer to position `p` designates, when the slot holds one. -/
def Table.cellAt (t : Table) (p : Position) : Option Cell :=
  (UMap.find t p).join

/-- Access through a cell pointer: applies `f` to the cell at `p`; `none` when there is no
cell to dereference. -/
def Table.modify (t : Table) (p : Position) (f : Cell → Cell) : Option Table :=
  match t.cellAt p with
  | some c => some (UMap.put t p (some (f c)))
  | none => none

/-- The `Sheet`: the cell table and the two occupancy counters. -/
structure Sheet where
  cells_ : Table
  row_sizes_ : UMap Int Int
  col_sizes_ : UMap Int Int
deriving DecidableEq, Repr

/-- A freshly constructed sheet. -/
def Sheet.empty : Sheet := ⟨[], [], []⟩

/-- How a call ends: normally, by one of the three exceptions, or in undefined behaviour. -/
inductive Outcome
  | ok
  | InvalidPositionException
  | CircularDependencyException
  | FormulaException
  | undefined
deriving DecidableEq, Repr

/-- The parser `ParseFormula`; `none` stands for the `FormulaException` it throws. -/
abbrev ParseFormula := String → Option Formula

/-- The increment `++m[k]`: `operator[]` inserts `0` under a missing key first. -/
def UMap.increment (m : UMap Int Int) (k : Int) : UMap Int Int :=
  UMap.put m k ((UMap.find m k).getD 0 + 1)

/-- The decrement `--m[k]`. -/
def UMap.decrement (m : UMap Int Int) (k : Int) : UMap Int Int :=
  UMap.put m k ((UMap.find m k).getD 0 - 1)

/-! ## `Cell::IsCircularDependency` -/

/-- The `while (!stack.empty())` loop of `Cell::IsCircularDependency`, run for at most the
given number of iterations. `referenced_cells` holds the non-null resolved pointers. -/
def circularLoop (t : Table) (referenced_cells : List Position) :
    Nat → List Position → List Position → Option Bool
  | 0, _, _ => none
  | _ + 1, [], _ => some false
  | n + 1, current :: stack, visited =>
    let visited := List.insert current visited
    if current ∈ referenced_cells then some true
    else
      match t.cellAt current with
      | none => none
      | some c =>
        circularLoop t referenced_cells n
          ((c.dependent_cells_.filter (fun dep_cell => decide (dep_cell ∉ visited))).reverse
            ++ stack)
          visited

/-- The number of `dependent_cells_` entries over the whole table. -/
def Table.edgeCount : Table → Nat
  | [] => 0
  | (_, some c) :: rest => c.dependent_cells_.length + Table.edgeCount rest
  | (_, none) :: rest => Table.edgeCount rest

/-- An iteration bound for the loop of `IsCircularDependency` that the loop never reaches
on a table whose `dependent_cells_` name cells of the table. -/
def Table.loopBound (t : Table) : Nat := 2 * t.edgeCount * t.length + 2

/-- The method `Cell::IsCircularDependency` of the cell at `self`. `Except.error` carries
the `InvalidPositionException` of `Sheet::GetCellPtr`, or undefined behaviour. -/
def Cell.IsCircularDependency (t : Table) (self : Position) (tmp_impl : Impl) :
    Except Outcome Bool :=
  let referenced_cells_vec := tmp_impl.GetReferencedCells
  if referenced_cells_vec.isEmpty then .ok false
  else if referenced_cells_vec.any (fun pos => !pos.IsValid) then
    .error .InvalidPositionException
  else
    let referenced_cells := referenced_cells_vec.filter (fun pos => (t.cellAt pos).isSome)
    match circularLoop t referenced_cells t.loopBound [self] [] with
    | some b => .ok b
    | none => .error .undefined

/-! ## `Cell::InvalidateDependentCellsCache` -/

/-- The method `Cell::InvalidateDependentCellsCache(force)` of the cell at `self`, with a
bound on the recursion depth; `none` when the bound is exhausted or a pointer dangles. -/
def InvalidateDependentCellsCache : Nat → Table → Position → Bool → Option Table
  | 0, _, _, _ => none
  | n + 1, t, self, force =>
    match t.cellAt self with
    | none => none
    | some c =>
      if !c.impl_.IsCacheValid || force then
        c.dependent_cells_.foldlM
          (fun acc dep_cell => InvalidateDependentCellsCache n acc dep_cell true)
          (UMap.put t self (some { c with impl_ := c.impl_.InvalidateCache }))
      else some t

/-! ## `Cell::Set`, `Cell::Clear`, `Sheet::SetCell`, `Sheet::ClearCell` -/

/-- The candidate content built at the start of `Cell::Set`; `none` when the constructor of
`FormulaImpl` lets the parser's exception through. -/
def Cell.makeImpl (parse : ParseFormula) (text : String) : Option Impl :=
  if text.data.isEmpty then some .EmptyImpl
  else if decide (text.data.length > 1) && decide (text.data.head? = some FORMULA_SIGN) then
    (parse (String.mk (text.data.drop 1))).map (fun f => .FormulaImpl f none)
  else some (.TextImpl text)

/-- The call `sheet_.SetCell(pos, "")` made by `Cell::Set` for a valid `pos` at which
`GetCellPtr` returned null: a missing key gets a new empty cell and both counters grow; a
key whose slot is null makes `cells_.at(pos)->Set` dereference null. -/
def Sheet.SetCellEmpty (s : Sheet) (pos : Position) : Option Sheet :=
  match UMap.find s.cells_ pos with
  | none =>
    some { cells_ := UMap.put s.cells_ pos (some Cell.create)
           row_sizes_ := s.row_sizes_.increment pos.row
           col_sizes_ := s.col_sizes_.increment pos.col }
  | some _ => none

/-- The statement `dependent_cells_.erase(self)` on a cell. -/
def Cell.eraseDependent (self : Position) (c : Cell) : Cell :=
  { c with dependent_cells_ := c.dependent_cells_.filter (fun d => decide (d ≠ self)) }

/-- The statement `dependent_cells_.insert(self)` on a cell. -/
def Cell.insertDependent (self : Position) (c : Cell) : Cell :=
  { c with dependent_cells_ := List.insert self c.dependent_cells_ }

/-- The statement `referenced_cells_.insert(ref_cell)` on a cell. -/
def Cell.insertReferenced (ref_cell : Position) (c : Cell) : Cell :=
  { c with referenced_cells_ := List.insert ref_cell c.referenced_cells_ }

/-- The statement `referenced_cells_.clear()` on a cell. -/
def Cell.clearReferenced (c : Cell) : Cell :=
  { c with referenced_cells_ := [] }

/-- One iteration of the last loop of `Cell::Set`: resolve `pos` (creating the cell when
`GetCellPtr` gives null; it cannot throw, `IsCircularDependency` has resolved the same
positions before), then insert the edge in both directions. -/
def Cell.link (self : Position) (s : Sheet) (pos : Position) : Option Sheet :=
  (match s.cells_.cellAt pos with
    | some _ => some s
    | none => s.SetCellEmpty pos).bind fun s1 =>
  (s1.cells_.modify self (Cell.insertReferenced pos)).bind fun t2 =>
  (t2.modify pos (Cell.insertDependent self)).map fun t3 =>
  { s1 with cells_ := t3 }

/-- The part of `Cell::Set` after the cycle check: install the content, erase this cell from
the dependents of the cells it referenced, clear `referenced_cells_`, insert the new edges,
invalidate the caches downstream. -/
def Cell.commit (s : Sheet) (self : Position) (this : Cell) (tmp_impl : Impl) :
    Option Sheet :=
  (this.referenced_cells_.foldlM
    (fun t ref_cell => Table.modify t ref_cell (Cell.eraseDependent self))
    (UMap.put s.cells_ self (some { this with impl_ := tmp_impl }))).bind fun t2 =>
  (t2.modify self Cell.clearReferenced).bind fun t3 =>
  (tmp_impl.GetReferencedCells.foldlM (Cell.link self) { s with cells_ := t3 }).bind fun s4 =>
  (InvalidateDependentCellsCache (s4.cells_.length + 1) s4.cells_ self true).map fun t5 =>
  { s4 with cells_ := t5 }

/-- The method `Cell::Set` of the cell at `self`. -/
def Cell.Set (parse : ParseFormula) (s : Sheet) (self : Position) (text : String) :
    Outcome × Sheet :=
  match s.cells_.cellAt self with
  | none => (.undefined, s)
  | some this =>
    match Cell.makeImpl parse text with
    | none => (.FormulaException, s)
    | some tmp_impl =>
      match Cell.IsCircularDependency s.cells_ self tmp_impl with
      | .error e => (e, s)
      | .ok true => (.CircularDependencyException, s)
      | .ok false =>
        match Cell.commit s self this tmp_impl with
        | none => (.undefined, s)
        | some s1 => (.ok, s1)

/-- The method `Cell::Clear`: only the content is replaced. -/
def Cell.Clear (c : Cell) : Cell := { c with impl_ := .EmptyImpl }

/-- The method `Cell::IsReferenced`. -/
def Cell.IsReferenced (c : Cell) : Bool := !c.referenced_cells_.isEmpty

/-- The method `Cell::GetText`. -/
def Cell.GetText (c : Cell) : String := c.impl_.GetText

/-- The method `Cell::GetReferencedCells`. -/
def Cell.GetReferencedCells (c : Cell) : List Position := c.impl_.GetReferencedCells

/-- The method `Sheet::SetCell`. -/
def Sheet.SetCell (parse : ParseFormula) (s : Sheet) (pos : Position) (text : String) :
    Outcome × Sheet :=
  if !pos.IsValid then (.InvalidPositionException, s)
  else
    let s1 : Sheet :=
      match UMap.find s.cells_ pos with
      | none => { s with cells_ := UMap.put s.cells_ pos (some Cell.create) }
      | some _ => s
    match Cell.Set parse s1 pos text with
    | (.ok, s2) =>
      (.ok, { s2 with row_sizes_ := s2.row_sizes_.increment pos.row
                      col_sizes_ := s2.col_sizes_.increment pos.col })
    | r => r

/-- The method `Sheet::GetCellPtr`: the cell behind the returned pointer, `none` for a null
pointer; the error is `InvalidPositionException`. -/
def Sheet.GetCellPtr (s : Sheet) (pos : Position) : Except Outcome (Option Cell) :=
  if !pos.IsValid then .error .InvalidPositionException
  else .ok (s.cells_.cellAt pos)

/-- The method `Sheet::GetCell`. -/
def Sheet.GetCell (s : Sheet) (pos : Position) : Except Outcome (Option Cell) :=
  s.GetCellPtr pos

/-- The method `Sheet::ClearCell`. -/
def Sheet.ClearCell (s : Sheet) (pos : Position) : Outcome × Sheet :=
  if !pos.IsValid then (.InvalidPositionException, s)
  else
    let cells : Table :=
      match s.cells_.cellAt pos with
      | some c =>
        if !c.Clear.IsReferenced then UMap.put s.cells_ pos none
        else UMap.put s.cells_ pos (some c.Clear)
      | none => s.cells_
    let rows := s.row_sizes_.decrement pos.row
    let cols := s.col_sizes_.decrement pos.col
    let rows := if (UMap.find rows pos.row).getD 0 ≤ 0 then rows.erase pos.row else rows
    let cols := if (UMap.find cols pos.col).getD 0 ≤ 0 then cols.erase pos.col else cols
    if cells.isEmpty then (.ok, ⟨cells, [], []⟩) else (.ok, ⟨cells, rows, cols⟩)

/-- The method `Sheet::GetPrintableSize`; both members of the local `Size` start at `0`
(the struct is declared in `common.h`; the spec gives `(0,0)` for a sheet without entries). -/
def Sheet.GetPrintableSize (s : Sheet) : Size :=
  { rows := s.row_sizes_.foldl (fun acc e => max acc (e.1 + 1)) 0
    cols := s.col_sizes_.foldl (fun acc e => max acc (e.1 + 1)) 0 }

/-- What `GetCell(pos)->GetValue()` does to the sheet when the formula at `pos` evaluates to
`evaluated`: the cache of that cell is filled if it was absent. -/
def Sheet.GetValue (s : Sheet) (pos : Position) (evaluated : FormulaValue) : Sheet :=
  match s.cells_.cellAt pos with
  | some c =>
    { s with cells_ := UMap.put s.cells_ pos
              (some { c with impl_ := (c.impl_.GetValue evaluated).2 }) }
  | none => s


/-! ## The dependency graph -/

/-- An edge of `dependent_cells_`: `d` is listed as a dependent of the cell at `x`. -/
def DepEdge (t : Table) (x d : Position) : Prop :=
  ∃ c, t.cellAt x = some c ∧ d ∈ c.dependent_cells_

/-- An edge of `referenced_cells_` (refs_out): the cell at `x` lists `r` as referenced. -/
def RefEdge (t : Table) (x r : Position) : Prop :=
  ∃ c, t.cellAt x = some c ∧ r ∈ c.referenced_cells_

/-- The cell with its cache reset, as `impl_->InvalidateCache()` leaves it. -/
def Cell.invalidated (c : Cell) : Cell := { c with impl_ := c.impl_.InvalidateCache }

/-- A table slot after the cache of its cell, if any, has been reset. -/
def invalidatedSlot (slot : Option (Option Cell)) : Option (Option Cell) :=
  slot.map (Option.map Cell.invalidated)

/-- Two tables that differ at most by reset caches. -/
def SameUpToCache (t t' : Table) : Prop :=
  ∀ q, UMap.find t' q = UMap.find t q ∨ UMap.find t' q = invalidatedSlot (UMap.find t q)

/-- The state of the table while the caches downstream of a cell are being reset: the slots
in `D` have been reset, the others are untouched. -/
def ResetOn (D : Position → Prop) (t t' : Table) : Prop :=
  ∀ q, (D q → UMap.find t' q = invalidatedSlot (UMap.find t q)) ∧
    (¬ D q → UMap.find t' q = UMap.find t q)

/-- The slot of `x` after the first loop of `Cell::Set` on the cell `this` at `self`. -/
def erasedSlot (t : Table) (self : Position) (this : Cell) (x : Position) :
    Option (Option Cell) :=
  if x ∈ this.referenced_cells_ then
    (UMap.find t x).map (Option.map (Cell.eraseDependent self))
  else UMap.find t x

/-- How the table `t4` that `Cell::Set` has built when it reaches the cache invalidation
relates to the table `t` it started from; `this` is the cell at `pos` in `t` (the cell being
set), and `tmp` the new content. -/
structure Rewired (t t4 : Table) (pos : Position) (this : Cell) (tmp : Impl) : Prop where
  self_cell : ∃ cs, t4.cellAt pos = some cs ∧ cs.impl_ = tmp ∧
    (∀ r, r ∈ cs.referenced_cells_ ↔ r ∈ tmp.GetReferencedCells) ∧
    cs.dependent_cells_ =
      if pos ∈ this.referenced_cells_ then
        this.dependent_cells_.filter (fun d => decide (d ≠ pos))
      else this.dependent_cells_
  other : ∀ x, x ≠ pos → UMap.find t4 x =
    if x ∈ tmp.GetReferencedCells then
      some (some (((erasedSlot t pos this x).join.getD Cell.create).insertDependent pos))
    else erasedSlot t pos this x
  fresh : ∀ x ∈ tmp.GetReferencedCells, x ≠ pos →
    (erasedSlot t pos this x).join = none → UMap.find t x = none

/-- The invariant of the dependency graph that `SetCell` and `ClearCell` maintain as long as
they stay within defined behaviour: every dependent is a cell that lists the edge as
referenced; a referenced cell that still exists lists the edge as dependent; a referenced
position keeps its key in the table; and `dependent_cells_` has no cycle. -/
structure WellFormed (t : Table) : Prop where
  dep_back : ∀ x d, DepEdge t x d → RefEdge t d x
  ref_back : ∀ x r, RefEdge t x r → (t.cellAt r).isSome → DepEdge t r x
  ref_present : ∀ x r, RefEdge t x r → (UMap.find t r).isSome
  acyclic : ∀ x, ¬ Relation.TransGen (DepEdge t) x x

/-- In a table reached without any `ClearCell`, no slot holds a null pointer. -/
def Intact (t : Table) : Prop :=
  ∀ p, UMap.find t p ≠ some none

/-! ## Calls and reachable states -/

/-- A call on the sheet. `GetValue pos evaluated` is `GetCell(pos)->GetValue()` on a cell
whose formula, if it has to be evaluated, yields `evaluated`. -/
inductive Call
  | SetCell (pos : Position) (text : String)
  | ClearCell (pos : Position)
  | GetValue (pos : Position) (evaluated : FormulaValue)
deriving DecidableEq, Repr

/-- The position a call addresses. -/
def Call.pos : Call → Position
  | .SetCell pos _ => pos
  | .ClearCell pos => pos
  | .GetValue pos _ => pos

/-- Running one call. -/
def Sheet.call (parse : ParseFormula) (s : Sheet) : Call → Outcome × Sheet
  | .SetCell pos text => s.SetCell parse pos text
  | .ClearCell pos => s.ClearCell pos
  | .GetValue pos evaluated => (.ok, s.GetValue pos evaluated)

/-- The states reachable from the empty sheet by `SetCell`, `ClearCell` and value reads on
valid positions, each call ending normally or by an exception. -/
inductive Reachable (parse : ParseFormula) : Sheet → Prop
  | empty : Reachable parse Sheet.empty
  | call (s : Sheet) (c : Call) : Reachable parse s → c.pos.IsValid = true →
      (s.call parse c).1 ≠ Outcome.undefined → Reachable parse (s.call parse c).2

/-- The states reachable from the empty sheet by `SetCell` calls on valid positions (each
succeeding or throwing) and value reads. -/
inductive ReachableBySetCell (parse : ParseFormula) : Sheet → Prop
  | empty : ReachableBySetCell parse Sheet.empty
  | SetCell (s : Sheet) (pos : Position) (text : String) : ReachableBySetCell parse s →
      pos.IsValid = true → ReachableBySetCell parse (s.SetCell parse pos text).2
  | GetValue (s : Sheet) (pos : Position) (evaluated : FormulaValue) :
      ReachableBySetCell parse s → ReachableBySetCell parse (s.GetValue pos evaluated)

/-! ## Measures for the termination of the traversal -/

/-- The number of keys of the table that are not in `visited`. -/
def unvisitedCount (t : Table) (visited : List Position) : Nat :=
  ((t.map Prod.fst).toFinset \ visited.toFinset).card

/-- Whether the next pop revisits a cell: `1` when the stack is empty or its top is already
visited, `0` otherwise. -/
def headVisited (stack visited : List Position) : Nat :=
  match stack with
  | [] => 1
  | hd :: _ => if hd ∈ visited then 1 else 0

/-- A quantity that every iteration of the loop of `IsCircularDependency` decreases. -/
def loopPotential (t : Table) (stack visited : List Position) : Nat :=
  2 * t.edgeCount * unvisitedCount t visited + stack.length
    + t.edgeCount * headVisited stack visited

/-! ## Observations and sample inputs -/

/-- The cached value held by the cell at `q`, if there is a cell and it holds one. -/
def Sheet.cachedValue (s : Sheet) (q : Position) : Option FormulaValue :=
  (s.cells_.cellAt q).bind fun c => c.impl_.cache

/-- A formula collaborator for the concrete scenarios: it parses the single references
`A1`, `B1` and `C1` and rejects every other expression. -/
def sampleParse : ParseFormula
  | "A1" => some ⟨"A1", [⟨0, 0⟩]⟩
  | "B1" => some ⟨"B1", [⟨0, 1⟩]⟩
  | "C1" => some ⟨"C1", [⟨0, 2⟩]⟩
  | _ => none

/-- The position `(0,0)`. -/
def A1 : Position := ⟨0, 0⟩

/-- The position `(0,1)`. -/
def B1 : Position := ⟨0, 1⟩

/-- The position `(0,2)`. -/
def C1 : Position := ⟨0, 2⟩

/-- The sheet after `SetCell(A1, "=B1")` on the empty sheet. -/
def sheetA1refB1 : Sheet := (Sheet.empty.SetCell sampleParse A1 "=B1").2

/-- The sheet after `SetCell(A1, "1"); SetCell(B1, "=A1")` on the empty sheet. -/
def sheetB1refA1 : Sheet :=
  ((Sheet.empty.SetCell sampleParse A1 "1").2.SetCell sampleParse B1 "=A1").2

/-- The sheet after `SetCell(C1, "1"); SetCell(A1, "=C1"); SetCell(B1, "=A1")` and a read
of the value of `B1`: evaluating `B1` reads `A1`, so both formula cells cache their value
(carried as the code `1`). -/
def sheetChain : Sheet :=
  (((((Sheet.empty.SetCell sampleParse C1 "1").2.SetCell sampleParse A1 "=C1").2.SetCell
    sampleParse B1 "=A1").2).GetValue A1 ⟨1⟩).GetValue B1 ⟨1⟩

/-! ## Values and printing -/

/-- The method `Cell::GetValue`; `evaluated` stands for what the formula evaluates to when
the cache has to be filled. -/
def Cell.GetValue (c : Cell) (evaluated : FormulaValue) : Value :=
  (c.impl_.GetValue evaluated).1

/-- The inner loop of `Sheet::PrintTexts` for one row: the text of each existing cell, and
a tab after every column but the last. -/
def Sheet.printRow (s : Sheet) (cols : Int) (row : Int) (output : String) : String :=
  (List.range cols.toNat).foldl
    (fun (output : String) (col : Nat) =>
      let output :=
        match s.cells_.cellAt ⟨row, (col : Int)⟩ with
        | some c => output ++ c.GetText
        | none => output
      if (col : Int) < cols - 1 then output.push (Char.ofNat 9) else output)
    output

/-- The method `Sheet::PrintTexts`: the characters written to the output stream. -/
def Sheet.PrintTexts (s : Sheet) : String :=
  let size := s.GetPrintableSize
  (List.range size.rows.toNat).foldl
    (fun (output : String) (row : Nat) =>
      (s.printRow size.cols (row : Int) output).push (Char.ofNat 10))
    ""

/-- The slot string of the spec: the text of the cell at `(row, col)` if a cell exists
there, the empty string otherwise. -/
def Sheet.slotText (s : Sheet) (row col : Nat) : String :=
  match s.cells_.cellAt ⟨(row : Int), (col : Int)⟩ with
  | some c => c.GetText
  | none => ""

/-- Strings joined by a single tab, in the words of the spec. -/
def joinWithTab : List String → String
  | [] => ""
  | [a] => a
  | a :: b :: rest => a ++ String.mk [Char.ofNat 9] ++ joinWithTab (b :: rest)

/-- The output of `PrintTexts` in the words of the spec: for each row of the printable
region in increasing order, the slot strings of the row joined by a tab, then a newline. -/
def Sheet.printedTextsSpec (s : Sheet) : String :=
  String.join ((List.range s.GetPrintableSize.rows.toNat).map fun row =>
    joinWithTab ((List.range s.GetPrintableSize.cols.toNat).map (s.slotText row))
      ++ String.mk [Char.ofNat 10])

/-- The text without one leading apostrophe, if it has one: the value the spec gives to a
text cell. -/
def unescaped (text : String) : String :=
  if text.data.head? = some ESCAPE_SIGN then String.mk (text.data.drop 1) else text

/-! ## Further sample inputs -/

/-- The position `(1,0)`. -/
def A2 : Position := ⟨1, 0⟩

/-- The sheet after `SetCell(A1, "a"); SetCell(A2, "b")` on the empty sheet. -/
def sheetColumn : Sheet :=
  ((Sheet.empty.SetCell sampleParse A1 "a").2.SetCell sampleParse A2 "b").2

/-- The sheet after `SetCell(A1, "a")` on the empty sheet. -/
def sheetA1text : Sheet := (Sheet.empty.SetCell sampleParse A1 "a").2

/-- The sheet after `SetCell(A1, "a"); ClearCell(A1)` on the empty sheet. -/
def sheetA1cleared : Sheet := (sheetA1text.ClearCell A1).2

/-- A table whose `dependent_cells_` form the cycle `A1 → B1 → A1`, next to a cell `C1`
without edges. -/
def cyclicTable : Table :=
  [(A1, some ⟨.EmptyImpl, [B1], [B1]⟩), (B1, some ⟨.EmptyImpl, [A1], [A1]⟩),
    (C1, some ⟨.EmptyImpl, [], []⟩)]

/-- The text of scenario 4 of the spec: an apostrophe followed by `=literal`. -/
def escapedLiteral : String := String.mk [ESCAPE_SIGN] ++ "=literal"
/-! # Properties of the embedding

## Association lists -/

theorem UMap.find_put {κ ν : Type} [DecidableEq κ] (m : UMap κ ν) (k k' : κ) (v : ν) :
    UMap.find (UMap.put m k v) k' = if k = k' then some v else UMap.find m k' := by
  induction m with
  | nil => simp [UMap.put, UMap.find]
  | cons e rest ih =>
    obtain ⟨a, b⟩ := e
    by_cases h1 : a = k
    · by_cases h2 : k = k'
      · simp [UMap.put, UMap.find, h1, h2]
      · subst h1
        simp [UMap.put, UMap.find, h2]
    · by_cases h3 : a = k'
      · have h4 : ¬ k = k' := fun h => h1 (h3.trans h.symm)
        simp only [UMap.put, if_neg h1, UMap.find, if_pos h3, if_neg h4]
      · simp only [UMap.put, if_neg h1, UMap.find, if_neg h3, ih]

theorem UMap.length_put_le {κ ν : Type} [DecidableEq κ] (m : UMap κ ν) (k : κ) (v : ν) :
    m.length ≤ (UMap.put m k v).length := by
  induction m with
  | nil => simp [UMap.put]
  | cons e rest ih =>
    obtain ⟨a, b⟩ := e
    by_cases h1 : a = k
    · simp [UMap.put, h1]
    · simp [UMap.put, h1]; exact ih

theorem UMap.length_put_of_find {κ ν : Type} [DecidableEq κ] (m : UMap κ ν) (k : κ) (v w : ν)
    (h : UMap.find m k = some w) : (UMap.put m k v).length = m.length := by
  induction m with
  | nil => simp [UMap.find] at h
  | cons e rest ih =>
    obtain ⟨a, b⟩ := e
    by_cases h1 : a = k
    · simp [UMap.put, h1]
    · simp only [UMap.find, h1, if_false] at h
      simp [UMap.put, h1, ih h]

theorem Table.cellAt_put (t : Table) (p q : Position) (slot : Option Cell) :
    Table.cellAt (UMap.put t p slot) q = if p = q then slot else Table.cellAt t q := by
  unfold Table.cellAt
  rw [UMap.find_put]
  split_ifs <;> rfl

theorem Table.find_of_cellAt {t : Table} {p : Position} {c : Cell}
    (h : t.cellAt p = some c) : UMap.find t p = some (some c) := by
  unfold Table.cellAt at h
  cases hf : UMap.find t p with
  | none => simp [hf] at h
  | some slot =>
    cases slot with
    | none => simp [hf] at h
    | some c' => simp [hf] at h; simp [h]

theorem Table.modify_eq_some {t t' : Table} {p : Position} {f : Cell → Cell}
    (h : t.modify p f = some t') :
    ∃ c, t.cellAt p = some c ∧ t' = UMap.put t p (some (f c)) := by
  unfold Table.modify at h
  cases hc : t.cellAt p with
  | none => simp [hc] at h
  | some c => simp [hc] at h; exact ⟨c, rfl, h.symm⟩

/-! ## The traversal of `IsCircularDependency` -/

theorem circularLoop_true {t : Table} {R : List Position} :
    ∀ (n : Nat) (stack visited : List Position),
      circularLoop t R n stack visited = some true →
      ∃ r ∈ R, ∃ x ∈ stack, Relation.ReflTransGen (DepEdge t) x r := by
  intro n
  induction n with
  | zero => intro stack visited h; simp [circularLoop] at h
  | succ n ih =>
    intro stack visited h
    cases stack with
    | nil => simp [circularLoop] at h
    | cons current stack =>
      simp only [circularLoop] at h
      by_cases hc : current ∈ R
      · exact ⟨current, hc, current, by simp, Relation.ReflTransGen.refl⟩
      · rw [if_neg hc] at h
        cases hcell : t.cellAt current with
        | none => simp [hcell] at h
        | some c =>
          simp only [hcell] at h
          obtain ⟨r, hr, x, hx, hpath⟩ := ih _ _ h
          refine ⟨r, hr, ?_⟩
          rcases List.mem_append.mp hx with hx | hx
          · have hx' : x ∈ c.dependent_cells_ := by
              have := List.mem_reverse.mp hx
              exact (List.mem_filter.mp this).1
            exact ⟨current, by simp,
              Relation.ReflTransGen.head ⟨c, hcell, hx'⟩ hpath⟩
          · exact ⟨x, List.mem_cons_of_mem _ hx, hpath⟩

theorem circularLoop_false {t : Table} {R : List Position} :
    ∀ (n : Nat) (stack visited : List Position),
      circularLoop t R n stack visited = some false →
      (∀ v ∈ visited, v ∉ R) →
      (∀ v ∈ visited, ∀ d, DepEdge t v d → d ∈ visited ∨ d ∈ stack) →
      ∃ V : List Position, (∀ v ∈ visited, v ∈ V) ∧ (∀ v ∈ stack, v ∈ V) ∧
        (∀ v ∈ V, v ∉ R) ∧ (∀ v ∈ V, ∀ d, DepEdge t v d → d ∈ V) := by
  intro n
  induction n with
  | zero => intro stack visited h; simp [circularLoop] at h
  | succ n ih =>
    intro stack visited h hR hclosed
    cases stack with
    | nil =>
      refine ⟨visited, fun v hv => hv, by simp, hR, ?_⟩
      intro v hv d hd
      rcases hclosed v hv d hd with h1 | h1
      · exact h1
      · simp at h1
    | cons current stack =>
      simp only [circularLoop] at h
      by_cases hc : current ∈ R
      · rw [if_pos hc] at h; simp at h
      · rw [if_neg hc] at h
        cases hcell : t.cellAt current with
        | none => simp [hcell] at h
        | some c =>
          simp only [hcell] at h
          have hR' : ∀ v ∈ List.insert current visited, v ∉ R := by
            intro v hv
            rcases List.mem_insert_iff.mp hv with h1 | h1
            · rw [h1]; exact hc
            · exact hR v h1
          have hclosed' : ∀ v ∈ List.insert current visited, ∀ d, DepEdge t v d →
              d ∈ List.insert current visited ∨
              d ∈ (c.dependent_cells_.filter
                    (fun dep_cell => decide (dep_cell ∉ List.insert current visited))).reverse
                  ++ stack := by
            intro v hv d hd
            rcases List.mem_insert_iff.mp hv with h1 | h1
            · subst h1
              obtain ⟨c', hc', hd'⟩ := hd
              rw [hcell] at hc'
              injection hc' with hc'
              subst hc'
              by_cases hdv : d ∈ List.insert v visited
              · exact Or.inl hdv
              · right
                apply List.mem_append_left
                apply List.mem_reverse.mpr
                apply List.mem_filter.mpr
                exact ⟨hd', by simpa using hdv⟩
            · rcases hclosed v h1 d hd with h2 | h2
              · exact Or.inl (List.mem_insert_iff.mpr (Or.inr h2))
              · rcases List.mem_cons.mp h2 with h3 | h3
                · exact Or.inl (List.mem_insert_iff.mpr (Or.inl h3))
                · exact Or.inr (List.mem_append_right _ h3)
          obtain ⟨V, hV1, hV2, hV3, hV4⟩ := ih _ _ h hR' hclosed'
          refine ⟨V, ?_, ?_, hV3, hV4⟩
          · intro v hv
            exact hV1 v (List.mem_insert_iff.mpr (Or.inr hv))
          · intro v hv
            rcases List.mem_cons.mp hv with h3 | h3
            · exact hV1 v (List.mem_insert_iff.mpr (Or.inl h3))
            · exact hV2 v (List.mem_append_right _ h3)

/-- What the traversal decides: whether a resolved referenced cell is this cell or is
reachable from it along `dependent_cells_`. -/
theorem circularLoop_iff {t : Table} {R : List Position} {n : Nat} {self : Position}
    {b : Bool} (h : circularLoop t R n [self] [] = some b) :
    b = true ↔ ∃ r ∈ R, Relation.ReflTransGen (DepEdge t) self r := by
  cases b with
  | true =>
    simp only [true_iff]
    obtain ⟨r, hr, x, hx, hp⟩ := circularLoop_true n _ _ h
    simp at hx
    subst hx
    exact ⟨r, hr, hp⟩
  | false =>
    simp only [Bool.false_eq_true, false_iff]
    rintro ⟨r, hr, hp⟩
    obtain ⟨V, -, hV2, hV3, hV4⟩ := circularLoop_false n _ _ h (by simp) (by simp)
    have hself : self ∈ V := hV2 self (by simp)
    have hall : ∀ y, Relation.ReflTransGen (DepEdge t) self y → y ∈ V := by
      intro y hy
      induction hy with
      | refl => exact hself
      | tail _ hedge ih => exact hV4 _ ih _ hedge
    exact hV3 r (hall r hp) hr
/-! ## Cache invalidation -/

theorem Impl.InvalidateCache_idem (i : Impl) :
    i.InvalidateCache.InvalidateCache = i.InvalidateCache := by
  cases i <;> rfl

theorem invalidatedSlot_idem (slot : Option (Option Cell)) :
    invalidatedSlot (invalidatedSlot slot) = invalidatedSlot slot := by
  rcases slot with _ | _ | c <;> simp [invalidatedSlot, Cell.invalidated, Impl.InvalidateCache_idem]

theorem SameUpToCache.cellAt {t t' : Table} (h : SameUpToCache t t') (q : Position) :
    t'.cellAt q = t.cellAt q ∨ t'.cellAt q = (t.cellAt q).map Cell.invalidated := by
  unfold Table.cellAt
  rcases h q with h1 | h1
  · left; rw [h1]
  · right; rw [h1]
    rcases UMap.find t q with _ | _ | c <;> simp [invalidatedSlot]

theorem SameUpToCache.depEdge {t t' : Table} (h : SameUpToCache t t') (x d : Position) :
    DepEdge t' x d ↔ DepEdge t x d := by
  unfold DepEdge
  rcases h.cellAt x with h1 | h1
  · rw [h1]
  · rw [h1]
    cases t.cellAt x with
    | none => simp
    | some c => simp [Cell.invalidated]

theorem SameUpToCache.refEdge {t t' : Table} (h : SameUpToCache t t') (x d : Position) :
    RefEdge t' x d ↔ RefEdge t x d := by
  unfold RefEdge
  rcases h.cellAt x with h1 | h1
  · rw [h1]
  · rw [h1]
    cases t.cellAt x with
    | none => simp
    | some c => simp [Cell.invalidated]

theorem SameUpToCache.reach {t t' : Table} (h : SameUpToCache t t') (x d : Position) :
    Relation.ReflTransGen (DepEdge t') x d ↔ Relation.ReflTransGen (DepEdge t) x d := by
  constructor
  · exact Relation.ReflTransGen.mono (fun a b hab => (h.depEdge a b).mp hab)
  · exact Relation.ReflTransGen.mono (fun a b hab => (h.depEdge a b).mpr hab)

theorem ResetOn.same {D : Position → Prop} {t t' : Table} (h : ResetOn D t t') :
    SameUpToCache t t' := by
  intro q
  by_cases hq : D q
  · exact Or.inr ((h q).1 hq)
  · exact Or.inl ((h q).2 hq)

theorem ResetOn.congr {D D' : Position → Prop} {t t' : Table} (h : ResetOn D t t')
    (hD : ∀ q, D q ↔ D' q) : ResetOn D' t t' := by
  intro q
  exact ⟨fun hq => (h q).1 ((hD q).mpr hq), fun hq => (h q).2 (fun hq' => hq ((hD q).mp hq'))⟩

theorem ResetOn.compose {D E : Position → Prop} {t t1 t2 : Table} (h1 : ResetOn D t t1)
    (h2 : ResetOn E t1 t2) : ResetOn (fun q => D q ∨ E q) t t2 := by
  intro q
  constructor
  · intro hq
    by_cases hE : E q
    · rw [(h2 q).1 hE]
      by_cases hD : D q
      · rw [(h1 q).1 hD, invalidatedSlot_idem]
      · rw [(h1 q).2 hD]
    · rw [(h2 q).2 hE]
      rcases hq with hD | hE'
      · exact (h1 q).1 hD
      · exact absurd hE' hE
  · intro hq
    have hD : ¬ D q := fun h => hq (Or.inl h)
    have hE : ¬ E q := fun h => hq (Or.inr h)
    rw [(h2 q).2 hE, (h1 q).2 hD]

theorem foldlM_cons_some {α β : Type} (f : β → α → Option β) (a : α) (l : List α) (b b' : β)
    (h : List.foldlM f b (a :: l) = some b') :
    ∃ b1, f b a = some b1 ∧ List.foldlM f b1 l = some b' := by
  simp only [List.foldlM] at h
  cases hf : f b a with
  | none => simp [hf] at h
  | some b1 => exact ⟨b1, rfl, by simpa [hf] using h⟩

/-- The effect of `InvalidateDependentCellsCache(true)` when it returns: exactly the cells
reachable from `self` along `dependent_cells_` have their caches reset. -/
theorem InvalidateDependentCellsCache_spec :
    ∀ (n : Nat) (t : Table) (self : Position) (t' : Table),
      InvalidateDependentCellsCache n t self true = some t' →
      ResetOn (fun q => Relation.ReflTransGen (DepEdge t) self q) t t' := by
  intro n
  induction n with
  | zero => intro t self t' h; simp [InvalidateDependentCellsCache] at h
  | succ n ih =>
    intro t self t' h
    simp only [InvalidateDependentCellsCache] at h
    cases hcell : t.cellAt self with
    | none => simp [hcell] at h
    | some c =>
      simp only [hcell, Bool.or_true, if_true] at h
      have hfind := Table.find_of_cellAt hcell
      -- the loop over the dependents
      have hloop : ∀ (deps : List Position) (tcur tfin : Table) (D : Position → Prop),
          List.foldlM (fun acc dep_cell => InvalidateDependentCellsCache n acc dep_cell true)
            tcur deps = some tfin →
          ResetOn D t tcur →
          ResetOn (fun q => D q ∨ ∃ d ∈ deps, Relation.ReflTransGen (DepEdge t) d q)
            t tfin := by
        intro deps
        induction deps with
        | nil =>
          intro tcur tfin D hf hD
          simp [List.foldlM] at hf
          subst hf
          exact hD.congr (by simp)
        | cons d rest ihl =>
          intro tcur tfin D hf hD
          obtain ⟨t1, h1, h2⟩ := foldlM_cons_some _ _ _ _ _ hf
          have hstep := ih tcur d t1 h1
          have hstep' : ResetOn (fun q => Relation.ReflTransGen (DepEdge t) d q) tcur t1 :=
            hstep.congr (fun q => hD.same.reach d q)
          have := ihl t1 tfin _ h2 (hD.compose hstep')
          refine this.congr ?_
          intro q
          simp only [List.mem_cons, exists_eq_or_imp]
          tauto
      have hstart : ResetOn (fun q => q = self) t
          (UMap.put t self (some { c with impl_ := c.impl_.InvalidateCache })) := by
        intro q
        constructor
        · intro hq
          subst hq
          rw [UMap.find_put, if_pos rfl, hfind]
          rfl
        · intro hq
          rw [UMap.find_put, if_neg (fun h => hq h.symm)]
      refine (hloop _ _ _ _ h hstart).congr ?_
      intro q
      constructor
      · rintro (hq | ⟨d, hd, hp⟩)
        · subst hq; exact Relation.ReflTransGen.refl
        · exact Relation.ReflTransGen.head ⟨c, hcell, hd⟩ hp
      · intro hp
        rcases Relation.ReflTransGen.cases_head hp with hq | ⟨d, hd, hp'⟩
        · exact Or.inl hq.symm
        · obtain ⟨c', hc', hd'⟩ := hd
          rw [hcell] at hc'
          injection hc' with hc'
          subst hc'
          exact Or.inr ⟨d, hd', hp'⟩
/-! ## The loops of `Cell::Set` -/

theorem Cell.eraseDependent_idem (self : Position) (c : Cell) :
    (c.eraseDependent self).eraseDependent self = c.eraseDependent self := by
  simp [Cell.eraseDependent, List.filter_filter]

theorem Cell.insertDependent_idem (self : Position) (c : Cell) :
    (c.insertDependent self).insertDependent self = c.insertDependent self := by
  simp [Cell.insertDependent]

theorem Table.modify_find {t t' : Table} {p : Position} {f : Cell → Cell}
    (h : t.modify p f = some t') (x : Position) :
    UMap.find t' x = if p = x then (UMap.find t x).map (Option.map f) else UMap.find t x := by
  obtain ⟨c, hc, rfl⟩ := Table.modify_eq_some h
  rw [UMap.find_put]
  split_ifs with hx
  · subst hx
    rw [Table.find_of_cellAt hc]
    rfl
  · rfl

/-- The first loop of `Cell::Set`, when it completes, has erased `self` from the dependents
of every cell in `refs` and touched nothing else. -/
theorem eraseLoop_find (self : Position) :
    ∀ (refs : List Position) (t t' : Table),
      List.foldlM (fun t ref_cell => Table.modify t ref_cell (Cell.eraseDependent self))
        t refs = some t' →
      ∀ x, UMap.find t' x =
        if x ∈ refs then (UMap.find t x).map (Option.map (Cell.eraseDependent self))
        else UMap.find t x := by
  intro refs
  induction refs with
  | nil => intro t t' h x; simp [List.foldlM] at h; simp [h]
  | cons r rest ih =>
    intro t t' h x
    obtain ⟨t1, h1, h2⟩ := foldlM_cons_some _ _ _ _ _ h
    rw [ih t1 t' h2 x, Table.modify_find h1 x]
    by_cases hx : r = x
    · subst hx
      simp only [if_true, List.mem_cons, true_or]
      split_ifs
      · rcases UMap.find t r with _ | _ | c <;> simp [Cell.eraseDependent_idem]
      · rfl
    · have hx' : ¬ x = r := fun h => hx h.symm
      simp only [if_neg hx, List.mem_cons, hx', false_or]

theorem SetCellEmpty_eq_some {s s' : Sheet} {pos : Position}
    (h : s.SetCellEmpty pos = some s') :
    UMap.find s.cells_ pos = none ∧
      s'.cells_ = UMap.put s.cells_ pos (some Cell.create) := by
  unfold Sheet.SetCellEmpty at h
  cases hf : UMap.find s.cells_ pos with
  | none => simp [hf] at h; subst h; exact ⟨rfl, rfl⟩
  | some v => simp [hf] at h

/-- One iteration of the linking loop. -/
theorem link_find {self pos : Position} {s s' : Sheet} (h : Cell.link self s pos = some s')
    (hne : pos ≠ self) :
    (s.cells_.cellAt pos = none → UMap.find s.cells_ pos = none) ∧
    (∃ cs, s.cells_.cellAt self = some cs) ∧
    ∀ x, UMap.find s'.cells_ x =
      if pos = x then some (some (((s.cells_.cellAt pos).getD Cell.create).insertDependent self))
      else if self = x then (UMap.find s.cells_ x).map (Option.map (Cell.insertReferenced pos))
      else UMap.find s.cells_ x := by
  unfold Cell.link at h
  -- the resolved sheet `s1`
  have key : ∀ s1 : Sheet,
      (s1.cells_.modify self (Cell.insertReferenced pos)).bind (fun t2 =>
        (t2.modify pos (Cell.insertDependent self)).map fun t3 =>
          ({ s1 with cells_ := t3 } : Sheet)) = some s' →
      (∃ cs, s1.cells_.cellAt self = some cs) ∧
      ∀ x, UMap.find s'.cells_ x =
        if pos = x then (UMap.find s1.cells_ x).map (Option.map (Cell.insertDependent self))
        else if self = x then (UMap.find s1.cells_ x).map (Option.map (Cell.insertReferenced pos))
        else UMap.find s1.cells_ x := by
    intro s1 h1
    cases hm : s1.cells_.modify self (Cell.insertReferenced pos) with
    | none => simp [hm] at h1
    | some t2 =>
      simp only [hm, Option.some_bind] at h1
      cases hm2 : t2.modify pos (Cell.insertDependent self) with
      | none => simp [hm2] at h1
      | some t3 =>
        simp only [hm2, Option.map_some'] at h1
        injection h1 with h1
        subst h1
        obtain ⟨cs, hcs, -⟩ := Table.modify_eq_some hm
        refine ⟨⟨cs, hcs⟩, ?_⟩
        intro x
        simp only
        rw [Table.modify_find hm2 x, Table.modify_find hm x]
        by_cases hx : pos = x
        · subst hx
          simp [Ne.symm hne]
        · simp [hx]
  cases hpos : s.cells_.cellAt pos with
  | some cp =>
    simp only [hpos, Option.some_bind] at h
    obtain ⟨hself, hfind⟩ := key s h
    refine ⟨by simp, hself, ?_⟩
    intro x
    rw [hfind x]
    by_cases hx : pos = x
    · subst hx
      simp [Table.find_of_cellAt hpos]
    · simp [hx]
  | none =>
    simp only [hpos] at h
    cases hv : s.SetCellEmpty pos with
    | none => simp [hv] at h
    | some s1 =>
      simp only [hv, Option.some_bind] at h
      obtain ⟨hnone, hcells⟩ := SetCellEmpty_eq_some hv
      obtain ⟨⟨cs, hcs⟩, hfind⟩ := key s1 h
      have hself' : s.cells_.cellAt self = some cs := by
        rw [hcells, Table.cellAt_put, if_neg hne] at hcs
        exact hcs
      refine ⟨fun _ => hnone, ⟨cs, hself'⟩, ?_⟩
      intro x
      rw [hfind x, hcells, UMap.find_put]
      by_cases hx : pos = x
      · subst hx
        simp
      · simp [hx]
theorem link_cellAt {self pos : Position} {s s' : Sheet}
    (h : Cell.link self s pos = some s') (hne : pos ≠ self) (x : Position) :
    s'.cells_.cellAt x =
      if pos = x then some (((s.cells_.cellAt pos).getD Cell.create).insertDependent self)
      else if self = x then (s.cells_.cellAt x).map (Cell.insertReferenced pos)
      else s.cells_.cellAt x := by
  obtain ⟨-, -, hfind⟩ := link_find h hne
  unfold Table.cellAt
  rw [hfind x]
  split_ifs
  · rfl
  · rcases UMap.find s.cells_ x with _ | _ | c <;> rfl
  · rfl

/-- The last loop of `Cell::Set`, when it completes: every listed position holds a cell
that has `self` among its dependents, `self` lists them as referenced, and no other slot is
touched. A position without a cell was absent from the table, not a null slot. -/
theorem linkLoop_spec (self : Position) :
    ∀ (L : List Position) (s s' : Sheet),
      List.foldlM (Cell.link self) s L = some s' → self ∉ L →
      ∀ cs, s.cells_.cellAt self = some cs →
      (∀ x, x ≠ self → x ∉ L → UMap.find s'.cells_ x = UMap.find s.cells_ x) ∧
      (∀ x ∈ L, UMap.find s'.cells_ x =
        some (some (((s.cells_.cellAt x).getD Cell.create).insertDependent self))) ∧
      (∀ x ∈ L, s.cells_.cellAt x = none → UMap.find s.cells_ x = none) ∧
      (∃ cs', s'.cells_.cellAt self = some cs' ∧ cs'.impl_ = cs.impl_ ∧
        cs'.dependent_cells_ = cs.dependent_cells_ ∧
        ∀ r, r ∈ cs'.referenced_cells_ ↔ r ∈ cs.referenced_cells_ ∨ r ∈ L) := by
  intro L
  induction L with
  | nil =>
    intro s s' h _ cs hcs
    simp [List.foldlM] at h
    subst h
    exact ⟨fun _ _ _ => rfl, by simp, by simp, cs, hcs, rfl, rfl, by simp⟩
  | cons p rest ih =>
    intro s s' h hself cs hcs
    obtain ⟨s1, h1, h2⟩ := foldlM_cons_some _ _ _ _ _ h
    have hp : p ≠ self := fun hp => hself (by simp [hp])
    have hrest : self ∉ rest := fun hr => hself (List.mem_cons_of_mem _ hr)
    obtain ⟨hnone, -, hfind1⟩ := link_find h1 hp
    have hcell1 := link_cellAt h1 hp
    have hcs1 : s1.cells_.cellAt self = some (cs.insertReferenced p) := by
      rw [hcell1 self, if_neg hp, if_pos rfl, hcs]; rfl
    obtain ⟨a1, b1, d1, cs', c1, c2, c3, c4⟩ := ih s1 s' h2 hrest _ hcs1
    refine ⟨?_, ?_, ?_, cs', c1, ?_, ?_, ?_⟩
    · intro x hx hxL
      have hxp : ¬ p = x := fun h => hxL (by simp [h])
      have hxr : x ∉ rest := fun h => hxL (List.mem_cons_of_mem _ h)
      rw [a1 x hx hxr, hfind1 x, if_neg hxp, if_neg (fun h => hx h.symm)]
    · intro x hxL
      by_cases hxr : x ∈ rest
      · rw [b1 x hxr, hcell1 x]
        by_cases hxp : p = x
        · subst hxp
          simp [Cell.insertDependent_idem]
        · have hxs : ¬ self = x := fun h => hrest (h ▸ hxr)
          rw [if_neg hxp, if_neg hxs]
      · have hxp : x = p := by
          rcases List.mem_cons.mp hxL with h | h
          · exact h
          · exact absurd h hxr
        subst hxp
        rw [a1 x hp hxr, hfind1 x, if_pos rfl]
    · intro x hxL hx
      by_cases hxp : p = x
      · subst hxp; exact hnone hx
      · have hxr : x ∈ rest := by
          rcases List.mem_cons.mp hxL with h | h
          · exact absurd h.symm hxp
          · exact h
        have hxs : ¬ self = x := fun h => hrest (h ▸ hxr)
        have h3 : s1.cells_.cellAt x = none := by
          rw [hcell1 x, if_neg hxp, if_neg hxs]; exact hx
        have h4 := d1 x hxr h3
        rw [hfind1 x, if_neg hxp, if_neg hxs] at h4
        exact h4
    · rw [c2]; rfl
    · rw [c3]; rfl
    · intro r
      rw [c4 r]
      simp only [Cell.insertReferenced, List.mem_insert_iff, List.mem_cons]
      tauto
theorem commit_eq_some {s s' : Sheet} {self : Position} {this : Cell} {tmp : Impl}
    (h : Cell.commit s self this tmp = some s') :
    ∃ t2 t3 s4 t5,
      List.foldlM (fun t ref_cell => Table.modify t ref_cell (Cell.eraseDependent self))
        (UMap.put s.cells_ self (some { this with impl_ := tmp }))
        this.referenced_cells_ = some t2 ∧
      t2.modify self Cell.clearReferenced = some t3 ∧
      List.foldlM (Cell.link self) { s with cells_ := t3 } tmp.GetReferencedCells = some s4 ∧
      InvalidateDependentCellsCache (s4.cells_.length + 1) s4.cells_ self true = some t5 ∧
      s' = { s4 with cells_ := t5 } := by
  unfold Cell.commit at h
  cases h2 : List.foldlM (fun t ref_cell => Table.modify t ref_cell (Cell.eraseDependent self))
      (UMap.put s.cells_ self (some { this with impl_ := tmp })) this.referenced_cells_ with
  | none => simp [h2] at h
  | some t2 =>
    simp only [h2, Option.some_bind] at h
    cases h3 : t2.modify self Cell.clearReferenced with
    | none => simp [h3] at h
    | some t3 =>
      simp only [h3, Option.some_bind] at h
      cases h4 : List.foldlM (Cell.link self) { s with cells_ := t3 }
          tmp.GetReferencedCells with
      | none => simp [h4] at h
      | some s4 =>
        simp only [h4, Option.some_bind] at h
        cases h5 : InvalidateDependentCellsCache (s4.cells_.length + 1) s4.cells_ self true with
        | none => simp [h5] at h
        | some t5 =>
          simp only [h5, Option.map_some'] at h
          injection h with h
          exact ⟨t2, t3, s4, t5, rfl, h3, h4, h5, h.symm⟩

/-- The edge rewiring of `Cell::Set`, from its three loops. -/
theorem rewired_of_loops {t t2 t3 : Table} {s4 : Sheet} {rows cols : UMap Int Int}
    {self : Position} {this : Cell} {tmp : Impl}
    (hself : self ∉ tmp.GetReferencedCells)
    (h2 : List.foldlM (fun t ref_cell => Table.modify t ref_cell (Cell.eraseDependent self))
        (UMap.put t self (some { this with impl_ := tmp }))
        this.referenced_cells_ = some t2)
    (h3 : t2.modify self Cell.clearReferenced = some t3)
    (h4 : List.foldlM (Cell.link self) ⟨t3, rows, cols⟩ tmp.GetReferencedCells = some s4) :
    Rewired t s4.cells_ self this tmp := by
  have hf2 := eraseLoop_find self _ _ _ h2
  have hf3 := Table.modify_find h3
  -- slots other than `self` after the first two steps
  have hother3 : ∀ x, x ≠ self → UMap.find t3 x = erasedSlot t self this x := by
    intro x hx
    have hne : ¬ self = x := fun h => hx h.symm
    rw [hf3 x, if_neg hne, hf2 x, UMap.find_put, if_neg hne]
    rfl
  -- the cell at `self` after the first two steps
  have hself3 : t3.cellAt self = some
      (Cell.clearReferenced (if self ∈ this.referenced_cells_ then
        Cell.eraseDependent self { this with impl_ := tmp }
        else { this with impl_ := tmp })) := by
    unfold Table.cellAt
    rw [hf3 self, if_pos rfl, hf2 self, UMap.find_put, if_pos rfl]
    split_ifs <;> rfl
  obtain ⟨a, b, d, cs', c1, c2, c3, c4⟩ := linkLoop_spec self _ _ _ h4 hself _ hself3
  refine ⟨⟨cs', c1, ?_, ?_, ?_⟩, ?_, ?_⟩
  · rw [c2]; split_ifs <;> rfl
  · intro r
    rw [c4 r]
    simp [Cell.clearReferenced]
  · rw [c3]; split_ifs <;> rfl
  · intro x hx
    by_cases hxR : x ∈ tmp.GetReferencedCells
    · rw [if_pos hxR, b x hxR]
      simp only [Table.cellAt]
      rw [hother3 x hx]
    · rw [if_neg hxR, a x hx hxR]
      exact hother3 x hx
  · intro x hxR hx hnone
    have h5 : Table.cellAt t3 x = none := by
      unfold Table.cellAt
      rw [hother3 x hx]; exact hnone
    have h6 := d x hxR h5
    simp only at h6
    rw [hother3 x hx] at h6
    unfold erasedSlot at h6
    split_ifs at h6
    · simpa using h6
    · exact h6
theorem erasedSlot_join (t : Table) (self : Position) (this : Cell) (x : Position) :
    (erasedSlot t self this x).join =
      if x ∈ this.referenced_cells_ then (t.cellAt x).map (Cell.eraseDependent self)
      else t.cellAt x := by
  unfold erasedSlot Table.cellAt
  split_ifs
  · rcases UMap.find t x with _ | _ | c <;> rfl
  · rfl

/-- The three ways a slot other than `self` comes out of the rewiring: an existing cell
with adjusted dependents, a newly created referenced cell, or an untouched empty slot. -/
theorem Rewired.cases {t t4 : Table} {self : Position} {this : Cell} {tmp : Impl}
    (hr : Rewired t t4 self this tmp) (x : Position) (hx : x ≠ self) :
    (∃ c c', t.cellAt x = some c ∧ t4.cellAt x = some c' ∧ c'.impl_ = c.impl_ ∧
      c'.referenced_cells_ = c.referenced_cells_ ∧
      ∀ d, d ∈ c'.dependent_cells_ ↔
        (d ∈ c.dependent_cells_ ∧ (x ∈ this.referenced_cells_ → d ≠ self)) ∨
        (d = self ∧ x ∈ tmp.GetReferencedCells)) ∨
    (t.cellAt x = none ∧ x ∈ tmp.GetReferencedCells ∧ UMap.find t x = none ∧
      t4.cellAt x = some ⟨.EmptyImpl, [], [self]⟩) ∨
    (t.cellAt x = none ∧ x ∉ tmp.GetReferencedCells ∧ UMap.find t4 x = UMap.find t x) := by
  have hother := hr.other x hx
  have hjoin := erasedSlot_join t self this x
  cases hc : t.cellAt x with
  | some c =>
    left
    by_cases hxR : x ∈ tmp.GetReferencedCells
    · rw [if_pos hxR] at hother
      by_cases hxo : x ∈ this.referenced_cells_
      · rw [hjoin, if_pos hxo, hc] at hother
        refine ⟨c, (c.eraseDependent self).insertDependent self, rfl,
          by unfold Table.cellAt; rw [hother]; rfl, rfl, rfl, ?_⟩
        intro d
        simp [Cell.insertDependent, Cell.eraseDependent, List.mem_insert_iff, List.mem_filter,
          hxR, hxo]
        tauto
      · rw [hjoin, if_neg hxo, hc] at hother
        refine ⟨c, c.insertDependent self, rfl,
          by unfold Table.cellAt; rw [hother]; rfl, rfl, rfl, ?_⟩
        intro d
        simp [Cell.insertDependent, List.mem_insert_iff, hxR, hxo]
        tauto
    · rw [if_neg hxR] at hother
      have h4 : t4.cellAt x = (erasedSlot t self this x).join := by
        unfold Table.cellAt; rw [hother]
      rw [hjoin] at h4
      by_cases hxo : x ∈ this.referenced_cells_
      · rw [if_pos hxo, hc] at h4
        refine ⟨c, c.eraseDependent self, rfl, h4, rfl, rfl, ?_⟩
        intro d
        simp [Cell.eraseDependent, List.mem_filter, hxR, hxo]
      · rw [if_neg hxo, hc] at h4
        refine ⟨c, c, rfl, h4, rfl, rfl, ?_⟩
        intro d
        simp [hxR, hxo]
  | none =>
    right
    have hj : (erasedSlot t self this x).join = none := by
      rw [hjoin, hc]; split_ifs <;> rfl
    by_cases hxR : x ∈ tmp.GetReferencedCells
    · left
      rw [if_pos hxR, hj] at hother
      refine ⟨rfl, hxR, hr.fresh x hxR hx hj, ?_⟩
      unfold Table.cellAt; rw [hother]; rfl
    · right
      rw [if_neg hxR] at hother
      refine ⟨rfl, hxR, ?_⟩
      rw [hother]
      unfold erasedSlot
      split_ifs
      · unfold Table.cellAt at hc
        rcases hfx : UMap.find t x with _ | _ | c
        · rfl
        · rfl
        · rw [hfx] at hc; simp at hc
      · rfl
/-! ## Paths after new edges into one node -/

theorem reach_old_or_hits {α : Type} {E E' : α → α → Prop} {self : α} {R : α → Prop}
    (hE : ∀ x d, E' x d → E x d ∨ (d = self ∧ R x)) {x y : α}
    (h : Relation.ReflTransGen E' x y) :
    Relation.ReflTransGen E x y ∨ ∃ r, R r ∧ Relation.ReflTransGen E x r := by
  induction h with
  | refl => exact Or.inl Relation.ReflTransGen.refl
  | tail _ hedge ih =>
    rcases ih with ih | ih
    · rcases hE _ _ hedge with h1 | ⟨-, h2⟩
      · exact Or.inl (ih.tail h1)
      · exact Or.inr ⟨_, h2, ih⟩
    · exact Or.inr ih

theorem path_old_or_through {α : Type} {E E' : α → α → Prop} {self : α} {R : α → Prop}
    (hE : ∀ x d, E' x d → E x d ∨ (d = self ∧ R x)) {a b : α}
    (h : Relation.TransGen E' a b) :
    Relation.TransGen E a b ∨
      ∃ r, R r ∧ Relation.ReflTransGen E' a r ∧ Relation.ReflTransGen E self b := by
  induction h with
  | single hedge =>
    rcases hE _ _ hedge with h1 | ⟨h2, h3⟩
    · exact Or.inl (Relation.TransGen.single h1)
    · subst h2
      exact Or.inr ⟨_, h3, Relation.ReflTransGen.refl, Relation.ReflTransGen.refl⟩
  | tail hpath hedge ih =>
    rcases hE _ _ hedge with h1 | ⟨h2, h3⟩
    · rcases ih with ih | ⟨r, hr, h4, h5⟩
      · exact Or.inl (ih.tail h1)
      · exact Or.inr ⟨r, hr, h4, h5.tail h1⟩
    · subst h2
      exact Or.inr ⟨_, h3, hpath.to_reflTransGen, Relation.ReflTransGen.refl⟩

/-- Adding edges into `self` from the nodes of `R` to a graph creates a cycle only if the
graph had one or some node of `R` was reachable from `self`. -/
theorem cycle_old_or_reach {α : Type} {E E' : α → α → Prop} {self : α} {R : α → Prop}
    (hE : ∀ x d, E' x d → E x d ∨ (d = self ∧ R x)) {a : α}
    (h : Relation.TransGen E' a a) :
    Relation.TransGen E a a ∨ ∃ r, R r ∧ Relation.ReflTransGen E self r := by
  rcases path_old_or_through hE h with h1 | ⟨r, hr, h2, h3⟩
  · exact Or.inl h1
  · right
    rcases reach_old_or_hits hE h2 with h4 | ⟨r', hr', h4⟩
    · exact ⟨r, hr, h3.trans h4⟩
    · exact ⟨r', hr', h3.trans h4⟩

/-! ## The rewiring keeps the graph well formed -/

theorem WellFormed.not_self_ref {t : Table} (hw : WellFormed t) {self : Position} {this : Cell}
    (hthis : t.cellAt self = some this) : self ∉ this.referenced_cells_ := by
  intro h
  have h1 : RefEdge t self self := ⟨this, hthis, h⟩
  have h2 := hw.ref_back _ _ h1 (by simp [hthis])
  exact hw.acyclic self (Relation.TransGen.single h2)

theorem Rewired.depEdge_old {t t4 : Table} {self : Position} {this : Cell} {tmp : Impl}
    (hr : Rewired t t4 self this tmp) (hw : WellFormed t) (hthis : t.cellAt self = some this)
    {x d : Position} (h : DepEdge t4 x d) :
    (DepEdge t x d ∧ d ≠ self) ∨ (d = self ∧ x ∈ tmp.GetReferencedCells) := by
  obtain ⟨c', hc', hd⟩ := h
  by_cases hx : x = self
  · subst hx
    obtain ⟨cs, hcs, -, -, hdeps⟩ := hr.self_cell
    rw [hcs] at hc'
    injection hc' with hc'
    subst hc'
    rw [if_neg (hw.not_self_ref hthis)] at hdeps
    rw [hdeps] at hd
    have hedge : DepEdge t x d := ⟨this, hthis, hd⟩
    left
    refine ⟨hedge, ?_⟩
    intro hdx
    subst hdx
    exact hw.acyclic d (Relation.TransGen.single hedge)
  · rcases hr.cases x hx with ⟨c, c'', hc, hc4, -, -, hdep⟩ | ⟨-, hxR, -, hc4⟩ | ⟨hc, -, hfind⟩
    · rw [hc4] at hc'
      injection hc' with hc'
      subst hc'
      rcases (hdep d).mp hd with ⟨h1, h2⟩ | h1
      · left
        have hedge : DepEdge t x d := ⟨c, hc, h1⟩
        refine ⟨hedge, ?_⟩
        intro hds
        subst hds
        obtain ⟨c0, hc0, hx0⟩ := hw.dep_back _ _ hedge
        rw [hthis] at hc0
        injection hc0 with hc0
        subst hc0
        exact h2 hx0 rfl
      · exact Or.inr h1
    · rw [hc4] at hc'
      injection hc' with hc'
      subst hc'
      simp at hd
      exact Or.inr ⟨hd, hxR⟩
    · have : t4.cellAt x = t.cellAt x := by unfold Table.cellAt; rw [hfind]
      rw [this, hc] at hc'
      exact absurd hc' (by simp)

theorem Rewired.depEdge_keep {t t4 : Table} {self : Position} {this : Cell} {tmp : Impl}
    (hr : Rewired t t4 self this tmp) (hw : WellFormed t) (hthis : t.cellAt self = some this)
    {x d : Position} (h : DepEdge t x d) (hd : d ≠ self) : DepEdge t4 x d := by
  obtain ⟨c, hc, hdc⟩ := h
  by_cases hx : x = self
  · subst hx
    obtain ⟨cs, hcs, -, -, hdeps⟩ := hr.self_cell
    rw [if_neg (hw.not_self_ref hthis)] at hdeps
    rw [hthis] at hc
    injection hc with hc
    subst hc
    exact ⟨cs, hcs, by rw [hdeps]; exact hdc⟩
  · rcases hr.cases x hx with ⟨c0, c', hc0, hc4, -, -, hdep⟩ | ⟨hc0, -, -, -⟩ | ⟨hc0, -, -⟩
    · rw [hc] at hc0
      injection hc0 with hc0
      subst hc0
      exact ⟨c', hc4, (hdep d).mpr (Or.inl ⟨hdc, fun _ => hd⟩)⟩
    · rw [hc] at hc0; exact absurd hc0 (by simp)
    · rw [hc] at hc0; exact absurd hc0 (by simp)

theorem Rewired.depEdge_new {t t4 : Table} {self : Position} {this : Cell} {tmp : Impl}
    (hr : Rewired t t4 self this tmp) (hself : self ∉ tmp.GetReferencedCells)
    {x : Position} (hxR : x ∈ tmp.GetReferencedCells) : DepEdge t4 x self := by
  have hx : x ≠ self := fun h => hself (h ▸ hxR)
  rcases hr.cases x hx with ⟨c0, c', -, hc4, -, -, hdep⟩ | ⟨-, -, -, hc4⟩ | ⟨-, hn, -⟩
  · exact ⟨c', hc4, (hdep self).mpr (Or.inr ⟨rfl, hxR⟩)⟩
  · exact ⟨_, hc4, by simp⟩
  · exact absurd hxR hn

theorem Rewired.refEdge_old {t t4 : Table} {self : Position} {this : Cell} {tmp : Impl}
    (hr : Rewired t t4 self this tmp) {x r : Position} (h : RefEdge t4 x r) :
    (x ≠ self ∧ RefEdge t x r) ∨ (x = self ∧ r ∈ tmp.GetReferencedCells) := by
  obtain ⟨c', hc', hrc⟩ := h
  by_cases hx : x = self
  · subst hx
    obtain ⟨cs, hcs, -, hrefs, -⟩ := hr.self_cell
    rw [hcs] at hc'
    injection hc' with hc'
    subst hc'
    exact Or.inr ⟨rfl, (hrefs r).mp hrc⟩
  · left
    refine ⟨hx, ?_⟩
    rcases hr.cases x hx with ⟨c, c'', hc, hc4, -, hrefs, -⟩ | ⟨-, -, -, hc4⟩ | ⟨hc, -, hfind⟩
    · rw [hc4] at hc'
      injection hc' with hc'
      subst hc'
      exact ⟨c, hc, hrefs ▸ hrc⟩
    · rw [hc4] at hc'
      injection hc' with hc'
      subst hc'
      simp at hrc
    · have : t4.cellAt x = t.cellAt x := by unfold Table.cellAt; rw [hfind]
      rw [this, hc] at hc'
      exact absurd hc' (by simp)

theorem Rewired.refEdge_keep {t t4 : Table} {self : Position} {this : Cell} {tmp : Impl}
    (hr : Rewired t t4 self this tmp) {x r : Position} (hx : x ≠ self) (h : RefEdge t x r) :
    RefEdge t4 x r := by
  obtain ⟨c, hc, hrc⟩ := h
  rcases hr.cases x hx with ⟨c0, c', hc0, hc4, -, hrefs, -⟩ | ⟨hc0, -, -, -⟩ | ⟨hc0, -, -⟩
  · rw [hc] at hc0
    injection hc0 with hc0
    subst hc0
    exact ⟨c', hc4, hrefs.symm ▸ hrc⟩
  · rw [hc] at hc0; exact absurd hc0 (by simp)
  · rw [hc] at hc0; exact absurd hc0 (by simp)

theorem Rewired.refEdge_new {t t4 : Table} {self : Position} {this : Cell} {tmp : Impl}
    (hr : Rewired t t4 self this tmp) {r : Position} (hrR : r ∈ tmp.GetReferencedCells) :
    RefEdge t4 self r := by
  obtain ⟨cs, hcs, -, hrefs, -⟩ := hr.self_cell
  exact ⟨cs, hcs, (hrefs r).mpr hrR⟩

theorem Rewired.live_old_or_absent {t t4 : Table} {self : Position} {this : Cell} {tmp : Impl}
    (hr : Rewired t t4 self this tmp) (hthis : t.cellAt self = some this) {x : Position}
    (h : (t4.cellAt x).isSome) : (t.cellAt x).isSome ∨ UMap.find t x = none := by
  by_cases hx : x = self
  · subst hx; left; simp [hthis]
  · rcases hr.cases x hx with ⟨c0, c', hc0, -, -, -, -⟩ | ⟨-, -, hf, -⟩ | ⟨hc0, -, hfind⟩
    · left; simp [hc0]
    · exact Or.inr hf
    · have : t4.cellAt x = t.cellAt x := by unfold Table.cellAt; rw [hfind]
      rw [this, hc0] at h
      simp at h

theorem Rewired.find_isSome {t t4 : Table} {self : Position} {this : Cell} {tmp : Impl}
    (hr : Rewired t t4 self this tmp) {x : Position}
    (h : (UMap.find t x).isSome) : (UMap.find t4 x).isSome := by
  by_cases hx : x = self
  · subst hx
    obtain ⟨cs, hcs, -⟩ := hr.self_cell
    rw [Table.find_of_cellAt hcs]; rfl
  · rcases hr.cases x hx with ⟨c0, c', -, hc4, -, -, -⟩ | ⟨-, -, -, hc4⟩ | ⟨-, -, hfind⟩
    · rw [Table.find_of_cellAt hc4]; rfl
    · rw [Table.find_of_cellAt hc4]; rfl
    · rw [hfind]; exact h

theorem Rewired.null_old {t t4 : Table} {self : Position} {this : Cell} {tmp : Impl}
    (hr : Rewired t t4 self this tmp) {x : Position}
    (h : UMap.find t4 x = some none) : UMap.find t x = some none := by
  by_cases hx : x = self
  · subst hx
    obtain ⟨cs, hcs, -⟩ := hr.self_cell
    rw [Table.find_of_cellAt hcs] at h
    simp at h
  · rcases hr.cases x hx with ⟨c0, c', -, hc4, -, -, -⟩ | ⟨-, -, -, hc4⟩ | ⟨-, -, hfind⟩
    · rw [Table.find_of_cellAt hc4] at h; simp at h
    · rw [Table.find_of_cellAt hc4] at h; simp at h
    · rw [← hfind]; exact h

/-- The table that `Cell::Set` has built when it reaches the cache invalidation is well
formed, given that the traversal found no referenced cell upstream of `self`. -/
theorem Rewired.keeps_wellFormed {t t4 : Table} {self : Position} {this : Cell} {tmp : Impl}
    (hr : Rewired t t4 self this tmp) (hw : WellFormed t) (hthis : t.cellAt self = some this)
    (hself : self ∉ tmp.GetReferencedCells)
    (hcheck : ∀ r ∈ tmp.GetReferencedCells, (t.cellAt r).isSome →
      ¬ Relation.ReflTransGen (DepEdge t) self r) :
    WellFormed t4 := by
  constructor
  · intro x d h
    rcases hr.depEdge_old hw hthis h with ⟨h1, h2⟩ | ⟨h1, h2⟩
    · exact hr.refEdge_keep h2 (hw.dep_back _ _ h1)
    · subst h1; exact hr.refEdge_new h2
  · intro x r h hlive
    rcases hr.refEdge_old h with ⟨h1, h2⟩ | ⟨h1, h2⟩
    · rcases hr.live_old_or_absent hthis hlive with h3 | h3
      · exact hr.depEdge_keep hw hthis (hw.ref_back _ _ h2 h3) h1
      · have := hw.ref_present _ _ h2
        rw [h3] at this
        simp at this
    · subst h1; exact hr.depEdge_new hself h2
  · intro x r h
    rcases hr.refEdge_old h with ⟨-, h2⟩ | ⟨h1, h2⟩
    · exact hr.find_isSome (hw.ref_present _ _ h2)
    · obtain ⟨c, hc, -⟩ := hr.depEdge_new hself h2
      rw [Table.find_of_cellAt hc]; rfl
  · intro a hcycle
    have hE : ∀ x d, DepEdge t4 x d →
        DepEdge t x d ∨ (d = self ∧ x ∈ tmp.GetReferencedCells) := by
      intro x d h
      rcases hr.depEdge_old hw hthis h with ⟨h1, -⟩ | h1
      · exact Or.inl h1
      · exact Or.inr h1
    rcases cycle_old_or_reach (R := fun x => x ∈ tmp.GetReferencedCells) hE hcycle with
      h1 | ⟨r, hrR, hpath⟩
    · exact hw.acyclic a h1
    · have hlive : (t.cellAt r).isSome := by
        rcases Relation.ReflTransGen.cases_tail hpath with h2 | ⟨y, -, hedge⟩
        · subst h2; exact absurd hrR hself
        · obtain ⟨c, hc, -⟩ := hw.dep_back _ _ hedge
          simp [hc]
      exact hcheck r hrR hlive hpath
/-! ## Other steps that keep the graph well formed -/

theorem WellFormed.of_same_edges {t t' : Table} (hw : WellFormed t)
    (hd : ∀ x d, DepEdge t' x d ↔ DepEdge t x d)
    (hr : ∀ x r, RefEdge t' x r ↔ RefEdge t x r)
    (hl : ∀ x, (t'.cellAt x).isSome → (t.cellAt x).isSome ∨ UMap.find t x = none)
    (hp : ∀ x, (UMap.find t x).isSome → (UMap.find t' x).isSome) : WellFormed t' := by
  constructor
  · intro x d h
    exact (hr _ _).mpr (hw.dep_back _ _ ((hd _ _).mp h))
  · intro x r h hlive
    have h1 := (hr _ _).mp h
    rcases hl r hlive with h2 | h2
    · exact (hd _ _).mpr (hw.ref_back _ _ h1 h2)
    · have := hw.ref_present _ _ h1
      rw [h2] at this
      simp at this
  · intro x r h
    exact hp _ (hw.ref_present _ _ ((hr _ _).mp h))
  · intro x h
    exact hw.acyclic x (Relation.TransGen.mono (fun a b hab => (hd a b).mp hab) h)

theorem SameUpToCache.preserves_wellFormed {t t' : Table} (h : SameUpToCache t t')
    (hw : WellFormed t) : WellFormed t' := by
  refine hw.of_same_edges h.depEdge h.refEdge ?_ ?_
  · intro x hx
    left
    rcases h.cellAt x with h1 | h1
    · rw [← h1]; exact hx
    · rw [h1] at hx
      cases hc : t.cellAt x with
      | none => rw [hc] at hx; simp at hx
      | some c => rfl
  · intro x hx
    rcases h x with h1 | h1
    · rw [h1]; exact hx
    · rw [h1]
      cases hc : UMap.find t x with
      | none => rw [hc] at hx; simp at hx
      | some c => rfl

theorem SameUpToCache.intact {t t' : Table} (h : SameUpToCache t t')
    (hi : Intact t) : Intact t' := by
  intro p hp
  rcases h p with h1 | h1
  · exact hi p (h1 ▸ hp)
  · rw [h1] at hp
    rcases hf : UMap.find t p with _ | _ | c
    · rw [hf] at hp; simp [invalidatedSlot] at hp
    · exact hi p hf
    · rw [hf] at hp; simp [invalidatedSlot] at hp

/-- Replacing the content of a cell, edges untouched, changes no edge. -/
theorem wellFormed_put_impl {t : Table} {p : Position} {c : Cell} (hw : WellFormed t)
    (hc : t.cellAt p = some c) (i : Impl) :
    WellFormed (UMap.put t p (some { c with impl_ := i })) := by
  have hcell : ∀ x, Table.cellAt (UMap.put t p (some { c with impl_ := i })) x =
      if p = x then some { c with impl_ := i } else t.cellAt x := fun x =>
    Table.cellAt_put t p x _
  refine hw.of_same_edges ?_ ?_ ?_ ?_
  · intro x d
    unfold DepEdge
    rw [hcell x]
    by_cases hx : p = x
    · subst hx; simp [hc]
    · simp [hx]
  · intro x d
    unfold RefEdge
    rw [hcell x]
    by_cases hx : p = x
    · subst hx; simp [hc]
    · simp [hx]
  · intro x hx
    left
    rw [hcell x] at hx
    by_cases hxp : p = x
    · subst hxp; simp [hc]
    · simpa [hxp] using hx
  · intro x hx
    rw [UMap.find_put]
    split_ifs
    · rfl
    · exact hx

/-- Creating an empty cell under an absent key changes no edge. -/
theorem wellFormed_put_create {t : Table} {p : Position} (hw : WellFormed t)
    (hp : UMap.find t p = none) : WellFormed (UMap.put t p (some Cell.create)) := by
  have hcell : ∀ x, Table.cellAt (UMap.put t p (some Cell.create)) x =
      if p = x then some Cell.create else t.cellAt x := fun x =>
    Table.cellAt_put t p x _
  have hnone : t.cellAt p = none := by unfold Table.cellAt; rw [hp]; rfl
  refine hw.of_same_edges ?_ ?_ ?_ ?_
  · intro x d
    unfold DepEdge
    rw [hcell x]
    by_cases hx : p = x
    · subst hx; simp [hnone, Cell.create]
    · simp [hx]
  · intro x d
    unfold RefEdge
    rw [hcell x]
    by_cases hx : p = x
    · subst hx; simp [hnone, Cell.create]
    · simp [hx]
  · intro x hx
    rw [hcell x] at hx
    by_cases hxp : p = x
    · subst hxp; exact Or.inr hp
    · left; simpa [hxp] using hx
  · intro x hx
    rw [UMap.find_put]
    split_ifs
    · rfl
    · exact hx

/-- Destroying a cell whose `referenced_cells_` is empty keeps the rest well formed. -/
theorem wellFormed_put_null {t : Table} {p : Position} {c : Cell} (hw : WellFormed t)
    (hc : t.cellAt p = some c) (hrefs : c.referenced_cells_ = []) :
    WellFormed (UMap.put t p none) := by
  have hcell : ∀ x, Table.cellAt (UMap.put t p none) x =
      if p = x then none else t.cellAt x := fun x => Table.cellAt_put t p x _
  have hd : ∀ x d, DepEdge (UMap.put t p none) x d ↔ x ≠ p ∧ DepEdge t x d := by
    intro x d
    unfold DepEdge
    rw [hcell x]
    by_cases hx : p = x
    · subst hx; simp
    · simp [hx, Ne.symm hx]
  have hr : ∀ x d, RefEdge (UMap.put t p none) x d ↔ x ≠ p ∧ RefEdge t x d := by
    intro x d
    unfold RefEdge
    rw [hcell x]
    by_cases hx : p = x
    · subst hx; simp
    · simp [hx, Ne.symm hx]
  have hnoref : ∀ r, ¬ RefEdge t p r := by
    rintro r ⟨c', hc', hr'⟩
    rw [hc] at hc'
    injection hc' with hc'
    subst hc'
    rw [hrefs] at hr'
    simp at hr'
  constructor
  · intro x d h
    obtain ⟨-, h2⟩ := (hd x d).mp h
    have h3 := hw.dep_back _ _ h2
    refine (hr d x).mpr ⟨?_, h3⟩
    intro hdp
    subst hdp
    exact hnoref _ h3
  · intro x r h hlive
    obtain ⟨-, h2⟩ := (hr x r).mp h
    rw [hcell r] at hlive
    by_cases hrp : p = r
    · simp [hrp] at hlive
    · rw [if_neg hrp] at hlive
      exact (hd r x).mpr ⟨Ne.symm hrp, hw.ref_back _ _ h2 hlive⟩
  · intro x r h
    obtain ⟨-, h2⟩ := (hr x r).mp h
    rw [UMap.find_put]
    split_ifs
    · rfl
    · exact hw.ref_present _ _ h2
  · intro x h
    exact hw.acyclic x (Relation.TransGen.mono (fun a b hab => ((hd a b).mp hab).2) h)

theorem wellFormed_empty : WellFormed ([] : Table) := by
  constructor
  · rintro x d ⟨c, hc, -⟩; simp [Table.cellAt, UMap.find] at hc
  · rintro x d ⟨c, hc, -⟩; simp [Table.cellAt, UMap.find] at hc
  · rintro x d ⟨c, hc, -⟩; simp [Table.cellAt, UMap.find] at hc
  · intro x h
    rcases Relation.TransGen.head'_iff.mp h with ⟨y, ⟨c, hc, -⟩, -⟩
    simp [Table.cellAt, UMap.find] at hc
/-! ## `Cell::Set` and `Sheet::SetCell` -/

theorem IsCircularDependency_false {t : Table} {self : Position} {tmp : Impl}
    (hlive : (t.cellAt self).isSome)
    (h : Cell.IsCircularDependency t self tmp = .ok false) :
    self ∉ tmp.GetReferencedCells ∧
      ∀ r ∈ tmp.GetReferencedCells, (t.cellAt r).isSome →
        ¬ Relation.ReflTransGen (DepEdge t) self r := by
  unfold Cell.IsCircularDependency at h
  simp only at h
  by_cases hR : tmp.GetReferencedCells.isEmpty = true
  · have : tmp.GetReferencedCells = [] := List.isEmpty_iff.mp hR
    rw [this]
    simp
  · rw [if_neg hR] at h
    split_ifs at h
    cases hloop : circularLoop t
        (tmp.GetReferencedCells.filter (fun pos => (t.cellAt pos).isSome)) t.loopBound
        [self] [] with
    | none => rw [hloop] at h; simp at h
    | some b =>
      rw [hloop] at h
      simp only at h
      injection h with h
      subst h
      have hiff := circularLoop_iff hloop
      have hno : ∀ r ∈ tmp.GetReferencedCells, (t.cellAt r).isSome →
          ¬ Relation.ReflTransGen (DepEdge t) self r := by
        intro r hr hl hp
        have : false = true := hiff.mpr ⟨r, List.mem_filter.mpr ⟨hr, hl⟩, hp⟩
        exact absurd this (by simp)
      exact ⟨fun hs => hno self hs hlive Relation.ReflTransGen.refl, hno⟩

theorem IsCircularDependency_error_ne_ok {t : Table} {self : Position} {tmp : Impl}
    {e : Outcome} (h : Cell.IsCircularDependency t self tmp = .error e) : e ≠ .ok := by
  unfold Cell.IsCircularDependency at h
  simp only at h
  split_ifs at h
  · injection h with h; subst h; simp
  · split at h
    · simp at h
    · injection h with h; subst h; simp

/-- The ways `Cell::Set` ends: without success and without effect, or by a commit after a
cycle check that found nothing. -/
theorem Cell.Set_cases (parse : ParseFormula) (s : Sheet) (self : Position) (text : String) :
    ((Cell.Set parse s self text).1 ≠ .ok ∧ (Cell.Set parse s self text).2 = s) ∨
    ∃ this tmp s', s.cells_.cellAt self = some this ∧ Cell.makeImpl parse text = some tmp ∧
      Cell.IsCircularDependency s.cells_ self tmp = .ok false ∧
      Cell.commit s self this tmp = some s' ∧ Cell.Set parse s self text = (.ok, s') := by
  cases hthis : s.cells_.cellAt self with
  | none => left; simp [Cell.Set, hthis]
  | some this =>
    cases hmk : Cell.makeImpl parse text with
    | none => left; simp [Cell.Set, hthis, hmk]
    | some tmp =>
      cases hcirc : Cell.IsCircularDependency s.cells_ self tmp with
      | error e =>
        left
        simp only [Cell.Set, hthis, hmk, hcirc]
        exact ⟨IsCircularDependency_error_ne_ok hcirc, trivial⟩
      | ok b =>
        cases b with
        | true => left; simp [Cell.Set, hthis, hmk, hcirc]
        | false =>
          cases hcommit : Cell.commit s self this tmp with
          | none => left; simp [Cell.Set, hthis, hmk, hcirc, hcommit]
          | some s' =>
            right
            exact ⟨this, tmp, s', rfl, rfl, hcirc, hcommit,
              by simp [Cell.Set, hthis, hmk, hcirc, hcommit]⟩

theorem commit_rewired {s s' : Sheet} {self : Position} {this : Cell} {tmp : Impl}
    (hself : self ∉ tmp.GetReferencedCells)
    (h : Cell.commit s self this tmp = some s') :
    ∃ t4, Rewired s.cells_ t4 self this tmp ∧
      InvalidateDependentCellsCache (t4.length + 1) t4 self true = some s'.cells_ := by
  obtain ⟨t2, t3, s4, t5, h2, h3, h4, h5, rfl⟩ := commit_eq_some h
  exact ⟨s4.cells_, rewired_of_loops hself h2 h3 h4, h5⟩

theorem commit_wellFormed {s s' : Sheet} {self : Position} {this : Cell} {tmp : Impl}
    (hw : WellFormed s.cells_) (hthis : s.cells_.cellAt self = some this)
    (hcirc : Cell.IsCircularDependency s.cells_ self tmp = .ok false)
    (h : Cell.commit s self this tmp = some s') : WellFormed s'.cells_ := by
  obtain ⟨hself, hcheck⟩ := IsCircularDependency_false (by simp [hthis]) hcirc
  obtain ⟨t4, hr, hinv⟩ := commit_rewired hself h
  have hw4 := hr.keeps_wellFormed hw hthis hself hcheck
  exact (InvalidateDependentCellsCache_spec _ _ _ _ hinv).same.preserves_wellFormed hw4

theorem Cell.Set_wellFormed (parse : ParseFormula) {s : Sheet} (self : Position)
    (text : String) (hw : WellFormed s.cells_) :
    WellFormed (Cell.Set parse s self text).2.cells_ := by
  rcases Cell.Set_cases parse s self text with ⟨-, h⟩ | ⟨this, tmp, s', h1, -, h3, h4, h5⟩
  · rw [h]; exact hw
  · rw [h5]; exact commit_wellFormed hw h1 h3 h4

/-- The sheet on which `Sheet::SetCell` calls `Cell::Set`: with a new empty cell at `pos`
when the key was absent. -/
theorem SetCell_eq (parse : ParseFormula) (s : Sheet) (pos : Position) (text : String)
    (hv : pos.IsValid = true) :
    ∃ s1 : Sheet,
      ((UMap.find s.cells_ pos = none ∧
          s1 = { s with cells_ := UMap.put s.cells_ pos (some Cell.create) }) ∨
        ((UMap.find s.cells_ pos).isSome ∧ s1 = s)) ∧
      (((Cell.Set parse s1 pos text).1 ≠ .ok ∧
          s.SetCell parse pos text = Cell.Set parse s1 pos text) ∨
        ∃ s2, Cell.Set parse s1 pos text = (.ok, s2) ∧
          s.SetCell parse pos text =
            (.ok, { s2 with row_sizes_ := s2.row_sizes_.increment pos.row
                            col_sizes_ := s2.col_sizes_.increment pos.col })) := by
  unfold Sheet.SetCell
  simp only [hv, Bool.not_true, Bool.false_eq_true, if_false]
  have key : ∀ s1 : Sheet,
      (((Cell.Set parse s1 pos text).1 ≠ .ok ∧
          (match Cell.Set parse s1 pos text with
            | (.ok, s2) =>
              (Outcome.ok, { s2 with row_sizes_ := s2.row_sizes_.increment pos.row
                                     col_sizes_ := s2.col_sizes_.increment pos.col })
            | r => r) = Cell.Set parse s1 pos text) ∨
        ∃ s2, Cell.Set parse s1 pos text = (.ok, s2) ∧
          (match Cell.Set parse s1 pos text with
            | (.ok, s2) =>
              (Outcome.ok, { s2 with row_sizes_ := s2.row_sizes_.increment pos.row
                                     col_sizes_ := s2.col_sizes_.increment pos.col })
            | r => r) =
            (.ok, { s2 with row_sizes_ := s2.row_sizes_.increment pos.row
                            col_sizes_ := s2.col_sizes_.increment pos.col })) := by
    intro s1
    rcases hres : Cell.Set parse s1 pos text with ⟨o, s2⟩
    cases o
    · right; exact ⟨s2, rfl, rfl⟩
    all_goals left; simp
  cases hf : UMap.find s.cells_ pos with
  | none => exact ⟨_, Or.inl ⟨rfl, rfl⟩, key _⟩
  | some v => exact ⟨_, Or.inr ⟨rfl, rfl⟩, key _⟩

theorem SetCell_wellFormed (parse : ParseFormula) {s : Sheet} (pos : Position)
    (text : String) (hw : WellFormed s.cells_) :
    WellFormed (s.SetCell parse pos text).2.cells_ := by
  by_cases hv : pos.IsValid = true
  · obtain ⟨s1, hs1, hres⟩ := SetCell_eq parse s pos text hv
    have hw1 : WellFormed s1.cells_ := by
      rcases hs1 with ⟨hf, rfl⟩ | ⟨-, rfl⟩
      · exact wellFormed_put_create hw hf
      · exact hw
    have hw2 := Cell.Set_wellFormed parse pos text hw1
    rcases hres with ⟨-, h⟩ | ⟨s2, h1, h2⟩
    · rw [h]; exact hw2
    · rw [h2]; rw [h1] at hw2; exact hw2
  · unfold Sheet.SetCell
    simp [hv, hw]

theorem ClearCell_wellFormed {s : Sheet} (pos : Position) (hw : WellFormed s.cells_) :
    WellFormed (s.ClearCell pos).2.cells_ := by
  unfold Sheet.ClearCell
  by_cases hv : pos.IsValid = true
  · simp only [hv, Bool.not_true, Bool.false_eq_true, if_false]
    have hcells : WellFormed
        (match s.cells_.cellAt pos with
          | some c =>
            if (!c.Clear.IsReferenced) = true then UMap.put s.cells_ pos none
            else UMap.put s.cells_ pos (some c.Clear)
          | none => s.cells_) := by
      cases hc : s.cells_.cellAt pos with
      | none => exact hw
      | some c =>
        simp only
        split_ifs with hr
        · apply wellFormed_put_null hw hc
          simpa [Cell.IsReferenced, Cell.Clear] using hr
        · exact wellFormed_put_impl hw hc _
    split_ifs <;> exact hcells
  · simp [hv, hw]

theorem GetValue_wellFormed {s : Sheet} (pos : Position) (evaluated : FormulaValue)
    (hw : WellFormed s.cells_) : WellFormed (s.GetValue pos evaluated).cells_ := by
  unfold Sheet.GetValue
  cases hc : s.cells_.cellAt pos with
  | none => exact hw
  | some c => exact wellFormed_put_impl hw hc _

/-- Every reachable table is well formed. -/
theorem Reachable.table_wellFormed {parse : ParseFormula} {s : Sheet} (h : Reachable parse s) :
    WellFormed s.cells_ := by
  induction h with
  | empty => exact wellFormed_empty
  | call s c _ _ _ ih =>
    cases c with
    | SetCell pos text => exact SetCell_wellFormed parse pos text ih
    | ClearCell pos => exact ClearCell_wellFormed pos ih
    | GetValue pos v => exact GetValue_wellFormed pos v ih
/-! ## Tables without null slots -/

theorem intact_put_some {t : Table} (hi : Intact t) (p : Position) (c : Cell) :
    Intact (UMap.put t p (some c)) := by
  intro q hq
  rw [UMap.find_put] at hq
  split_ifs at hq
  · simp at hq
  · exact hi q hq

theorem commit_intact {s s' : Sheet} {self : Position} {this : Cell} {tmp : Impl}
    (hi : Intact s.cells_) (hself : self ∉ tmp.GetReferencedCells)
    (h : Cell.commit s self this tmp = some s') : Intact s'.cells_ := by
  obtain ⟨t4, hr, hinv⟩ := commit_rewired hself h
  have hi4 : Intact t4 := fun p hp => hi p (hr.null_old hp)
  exact (InvalidateDependentCellsCache_spec _ _ _ _ hinv).same.intact hi4

theorem Cell.Set_intact (parse : ParseFormula) {s : Sheet} (self : Position)
    (text : String) (hi : Intact s.cells_) :
    Intact (Cell.Set parse s self text).2.cells_ := by
  rcases Cell.Set_cases parse s self text with ⟨-, h⟩ | ⟨this, tmp, s', h1, -, h3, h4, h5⟩
  · rw [h]; exact hi
  · rw [h5]
    exact commit_intact hi (IsCircularDependency_false (by simp [h1]) h3).1 h4

theorem SetCell_intact (parse : ParseFormula) {s : Sheet} (pos : Position)
    (text : String) (hi : Intact s.cells_) :
    Intact (s.SetCell parse pos text).2.cells_ := by
  by_cases hv : pos.IsValid = true
  · obtain ⟨s1, hs1, hres⟩ := SetCell_eq parse s pos text hv
    have hi1 : Intact s1.cells_ := by
      rcases hs1 with ⟨-, rfl⟩ | ⟨-, rfl⟩
      · exact intact_put_some hi _ _
      · exact hi
    have hi2 := Cell.Set_intact parse pos text hi1
    rcases hres with ⟨-, h⟩ | ⟨s2, h1, h2⟩
    · rw [h]; exact hi2
    · rw [h2]; rw [h1] at hi2; exact hi2
  · unfold Sheet.SetCell
    simp [hv, hi]

theorem GetValue_intact {s : Sheet} (pos : Position) (evaluated : FormulaValue)
    (hi : Intact s.cells_) : Intact (s.GetValue pos evaluated).cells_ := by
  unfold Sheet.GetValue
  cases hc : s.cells_.cellAt pos with
  | none => exact hi
  | some c => exact intact_put_some hi _ _

theorem ReachableBySetCell.invariant {parse : ParseFormula} {s : Sheet}
    (h : ReachableBySetCell parse s) : WellFormed s.cells_ ∧ Intact s.cells_ := by
  induction h with
  | empty => exact ⟨wellFormed_empty, fun p hp => by simp [Sheet.empty, UMap.find] at hp⟩
  | SetCell s pos text _ _ ih =>
    exact ⟨SetCell_wellFormed parse pos text ih.1, SetCell_intact parse pos text ih.2⟩
  | GetValue s pos v _ ih =>
    exact ⟨GetValue_wellFormed pos v ih.1, GetValue_intact pos v ih.2⟩

/-- In a well-formed table without null slots the two edge relations are converse. -/
theorem refEdge_iff_depEdge {t : Table} (hw : WellFormed t) (hi : Intact t)
    (a b : Position) : RefEdge t a b ↔ DepEdge t b a := by
  constructor
  · intro h
    apply hw.ref_back _ _ h
    have h1 := hw.ref_present _ _ h
    unfold Table.cellAt
    rcases hf : UMap.find t b with _ | _ | c
    · rw [hf] at h1; simp at h1
    · exact absurd hf (hi b)
    · rfl
  · exact hw.dep_back b a

theorem refEdge_acyclic {t : Table} (hw : WellFormed t) (hi : Intact t) (p : Position) :
    ¬ Relation.TransGen (RefEdge t) p p := by
  intro h
  have h1 : Relation.TransGen (Function.swap (DepEdge t)) p p :=
    Relation.TransGen.mono (fun a b hab => (refEdge_iff_depEdge hw hi a b).mp hab) h
  rw [Relation.transGen_swap] at h1
  exact hw.acyclic p h1
/-! ## Termination of the traversal -/

theorem Table.mem_keys_of_find {t : Table} {x : Position} {v : Option Cell}
    (h : UMap.find t x = some v) : x ∈ t.map Prod.fst := by
  induction t with
  | nil => simp [UMap.find] at h
  | cons e rest ih =>
    obtain ⟨k, w⟩ := e
    simp only [UMap.find] at h
    by_cases hk : k = x
    · simp [hk]
    · rw [if_neg hk] at h
      simp [ih h]

theorem Table.deps_length_le {t : Table} {x : Position} {c : Cell}
    (h : t.cellAt x = some c) : c.dependent_cells_.length ≤ t.edgeCount := by
  have hf := Table.find_of_cellAt h
  clear h
  induction t with
  | nil => simp [UMap.find] at hf
  | cons e rest ih =>
    obtain ⟨k, w⟩ := e
    simp only [UMap.find] at hf
    by_cases hk : k = x
    · rw [if_pos hk] at hf
      injection hf with hf
      subst hf
      simp [Table.edgeCount]
    · rw [if_neg hk] at hf
      have := ih hf
      cases w with
      | none => simpa [Table.edgeCount] using this
      | some c' => simp only [Table.edgeCount]; omega

theorem unvisitedCount_le (t : Table) (visited : List Position) :
    unvisitedCount t visited ≤ t.length := by
  unfold unvisitedCount
  calc ((t.map Prod.fst).toFinset \ visited.toFinset).card
      ≤ (t.map Prod.fst).toFinset.card := Finset.card_le_card Finset.sdiff_subset
    _ ≤ (t.map Prod.fst).length := List.toFinset_card_le _
    _ = t.length := by simp

theorem unvisitedCount_insert_new {t : Table} {x : Position} {visited : List Position}
    (hx : x ∈ t.map Prod.fst) (hv : x ∉ visited) :
    unvisitedCount t (List.insert x visited) + 1 = unvisitedCount t visited := by
  unfold unvisitedCount
  have h1 : (List.insert x visited).toFinset = insert x visited.toFinset := by
    ext y; simp
  rw [h1, Finset.sdiff_insert]
  have hmem : x ∈ (t.map Prod.fst).toFinset \ visited.toFinset := by
    simp only [Finset.mem_sdiff, List.mem_toFinset]
    exact ⟨hx, hv⟩
  rw [Finset.card_erase_of_mem hmem]
  have : 0 < ((t.map Prod.fst).toFinset \ visited.toFinset).card :=
    Finset.card_pos.mpr ⟨x, hmem⟩
  omega

theorem circularLoop_terminates_aux {t : Table} {R : List Position}
    (hclosed : ∀ x d, DepEdge t x d → (t.cellAt d).isSome) :
    ∀ (n : Nat) (stack visited : List Position),
      (∀ x ∈ stack, (t.cellAt x).isSome) → loopPotential t stack visited < n →
      ∃ b, circularLoop t R n stack visited = some b := by
  intro n
  induction n with
  | zero => intro stack visited _ h; omega
  | succ n ih =>
    intro stack visited hlive hpot
    cases stack with
    | nil => exact ⟨false, by simp [circularLoop]⟩
    | cons current rest =>
      simp only [circularLoop]
      by_cases hc : current ∈ R
      · exact ⟨true, by rw [if_pos hc]⟩
      · rw [if_neg hc]
        have hcur := hlive current (by simp)
        cases hcell : t.cellAt current with
        | none => rw [hcell] at hcur; simp at hcur
        | some c =>
          simp only
          apply ih
          · intro x hx
            rcases List.mem_append.mp hx with hx | hx
            · have hx' := (List.mem_filter.mp (List.mem_reverse.mp hx)).1
              exact hclosed current x ⟨c, hcell, hx'⟩
            · exact hlive x (List.mem_cons_of_mem _ hx)
          · -- the potential decreases
            have hD := Table.deps_length_le hcell
            have hpush : ((c.dependent_cells_.filter
                (fun dep_cell => decide (dep_cell ∉ List.insert current visited))).reverse).length
                ≤ t.edgeCount := by
              rw [List.length_reverse]
              exact le_trans (List.length_filter_le _ _) hD
            have hhv : ∀ (s v : List Position), headVisited s v ≤ 1 := by
              intro s v
              unfold headVisited
              cases s with
              | nil => simp
              | cons a l => simp only; split_ifs <;> simp
            unfold loopPotential at hpot ⊢
            rw [List.length_append]
            by_cases hvis : current ∈ visited
            · -- a revisit: the table of unvisited cells is unchanged
              have hins : List.insert current visited = visited := List.insert_of_mem hvis
              rw [hins] at hpush ⊢
              have hb : headVisited (current :: rest) visited = 1 := by
                simp [headVisited, hvis]
              rw [hb] at hpot
              simp only [List.length_cons] at hpot
              generalize hP : (c.dependent_cells_.filter
                (fun dep_cell => decide (dep_cell ∉ visited))).reverse = pushes at hpush ⊢
              have hcomb : pushes.length + t.edgeCount * headVisited (pushes ++ rest) visited
                  ≤ t.edgeCount := by
                cases pushes with
                | nil =>
                  have := hhv ([] ++ rest) visited
                  have h2 := Nat.mul_le_mul_left t.edgeCount this
                  simp only [List.length_nil, Nat.zero_add]
                  omega
                | cons a l =>
                  have ha : a ∈ (c.dependent_cells_.filter
                      (fun dep_cell => decide (dep_cell ∉ visited))).reverse := by
                    rw [hP]; simp
                  have ha' := (List.mem_filter.mp (List.mem_reverse.mp ha)).2
                  have ha'' : a ∉ visited := by simpa using ha'
                  have : headVisited (a :: l ++ rest) visited = 0 := by
                    simp [headVisited, ha'']
                  rw [this]
                  omega
              omega
            · have hkey : current ∈ t.map Prod.fst :=
                Table.mem_keys_of_find (Table.find_of_cellAt hcell)
              have hU := unvisitedCount_insert_new hkey hvis
              have hb : headVisited (current :: rest) visited = 0 := by
                simp [headVisited, hvis]
              rw [hb] at hpot
              simp only [List.length_cons] at hpot
              have hb' := Nat.mul_le_mul_left t.edgeCount
                (hhv ((c.dependent_cells_.filter
                  (fun dep_cell => decide (dep_cell ∉ List.insert current visited))).reverse
                  ++ rest) (List.insert current visited))
              rw [← hU] at hpot
              have hmul : 2 * t.edgeCount *
                  (unvisitedCount t (List.insert current visited) + 1) =
                  2 * t.edgeCount * unvisitedCount t (List.insert current visited)
                    + 2 * t.edgeCount := by ring
              rw [hmul] at hpot
              omega

/-- The loop of `IsCircularDependency` ends within the bound on every table whose
`dependent_cells_` name cells of the table, cyclic or not. -/
theorem circularLoop_terminates {t : Table} {R : List Position} {self : Position}
    (hclosed : ∀ x d, DepEdge t x d → (t.cellAt d).isSome)
    (hself : (t.cellAt self).isSome) :
    ∃ b, circularLoop t R t.loopBound [self] [] = some b := by
  apply circularLoop_terminates_aux hclosed
  · intro x hx
    simp at hx
    subst hx
    exact hself
  · unfold loopPotential Table.loopBound
    have h1 := unvisitedCount_le t []
    have h2 : headVisited [self] [] = 0 := by simp [headVisited]
    have h3 := Nat.mul_le_mul_left (2 * t.edgeCount) h1
    rw [h2]
    simp only [List.length_singleton, Nat.mul_zero, Nat.add_zero]
    omega
/-! ## Termination of the cache invalidation -/

theorem SameUpToCache.refl (t : Table) : SameUpToCache t t := fun _ => Or.inl rfl

theorem SameUpToCache.chain {t t1 t2 : Table} (h1 : SameUpToCache t t1)
    (h2 : SameUpToCache t1 t2) : SameUpToCache t t2 := by
  intro q
  rcases h2 q with h3 | h3 <;> rcases h1 q with h4 | h4
  · left; rw [h3, h4]
  · right; rw [h3, h4]
  · right; rw [h3, h4]
  · right; rw [h3, h4, invalidatedSlot_idem]

theorem SameUpToCache.cell {t t' : Table} (h : SameUpToCache t t') {p : Position} {c : Cell}
    (hc : t.cellAt p = some c) :
    ∃ c', t'.cellAt p = some c' ∧ c'.dependent_cells_ = c.dependent_cells_ ∧
      c'.invalidated = c.invalidated := by
  rcases h.cellAt p with h1 | h1
  · exact ⟨c, by rw [h1, hc], rfl, rfl⟩
  · refine ⟨c.invalidated, by rw [h1, hc]; rfl, rfl, ?_⟩
    simp [Cell.invalidated, Impl.InvalidateCache_idem]

open Classical in
theorem invalidate_terminates_aux {t : Table}
    (hclosed : ∀ x d, DepEdge t x d → (t.cellAt d).isSome)
    (hacyc : ∀ x, ¬ Relation.TransGen (DepEdge t) x x) :
    ∀ (fuel : Nat) (tcur : Table) (p : Position), SameUpToCache t tcur →
      (t.cellAt p).isSome →
      t.length + 1 ≤ fuel + ((t.map Prod.fst).toFinset.filter
        (fun x => Relation.TransGen (DepEdge t) x p)).card →
      ∃ t', InvalidateDependentCellsCache fuel tcur p true = some t' := by
  intro fuel
  induction fuel with
  | zero =>
    intro tcur p _ _ hfuel
    have h1 : ((t.map Prod.fst).toFinset.filter
        (fun x => Relation.TransGen (DepEdge t) x p)).card ≤ t.length :=
      calc _ ≤ (t.map Prod.fst).toFinset.card := Finset.card_le_card (Finset.filter_subset _ _)
        _ ≤ (t.map Prod.fst).length := List.toFinset_card_le _
        _ = t.length := by simp
    omega
  | succ fuel ih =>
    intro tcur p hsame hlive hfuel
    cases hc : t.cellAt p with
    | none => rw [hc] at hlive; simp at hlive
    | some c =>
      obtain ⟨c', hc', hdeps, hinv⟩ := hsame.cell hc
      simp only [InvalidateDependentCellsCache, hc', Bool.or_true, if_true]
      have hstart : SameUpToCache t
          (UMap.put tcur p (some { c' with impl_ := c'.impl_.InvalidateCache })) := by
        intro q
        rw [UMap.find_put]
        by_cases hq : p = q
        · subst hq
          right
          rw [if_pos rfl, Table.find_of_cellAt hc]
          show some (some c'.invalidated) = _
          rw [hinv]; rfl
        · rw [if_neg hq]
          exact hsame q
      have hloop : ∀ (deps : List Position), (∀ d ∈ deps, d ∈ c.dependent_cells_) →
          ∀ tc, SameUpToCache t tc →
          ∃ t', List.foldlM
            (fun acc dep_cell => InvalidateDependentCellsCache fuel acc dep_cell true)
            tc deps = some t' := by
        intro deps
        induction deps with
        | nil => intro _ tc _; exact ⟨tc, by simp [List.foldlM]⟩
        | cons d rest ihl =>
          intro hsub tc htc
          have hd : DepEdge t p d := ⟨c, hc, hsub d (by simp)⟩
          have hdlive := hclosed p d hd
          have hpkey : p ∈ (t.map Prod.fst).toFinset :=
            List.mem_toFinset.mpr (Table.mem_keys_of_find (Table.find_of_cellAt hc))
          have hlt : ((t.map Prod.fst).toFinset.filter
              (fun x => Relation.TransGen (DepEdge t) x p)).card <
              ((t.map Prod.fst).toFinset.filter
                (fun x => Relation.TransGen (DepEdge t) x d)).card := by
            apply Finset.card_lt_card
            rw [Finset.ssubset_iff_of_subset]
            · refine ⟨p, ?_, ?_⟩
              · simp only [Finset.mem_filter]
                exact ⟨hpkey, Relation.TransGen.single hd⟩
              · simp only [Finset.mem_filter, not_and]
                intro _
                exact hacyc p
            · intro x hx
              simp only [Finset.mem_filter] at hx ⊢
              exact ⟨hx.1, hx.2.tail hd⟩
          obtain ⟨t1, ht1⟩ := ih tc d htc hdlive (by omega)
          have hsame1 : SameUpToCache t t1 :=
            htc.chain (InvalidateDependentCellsCache_spec _ _ _ _ ht1).same
          obtain ⟨t', ht'⟩ := ihl (fun x hx => hsub x (List.mem_cons_of_mem _ hx)) t1 hsame1
          exact ⟨t', by simp [List.foldlM, ht1, ht']⟩
      exact hloop _ (fun _ h => hdeps ▸ h) _ hstart

/-- On an acyclic table whose dependents are cells of the table, the recursion of
`InvalidateDependentCellsCache` ends within the depth bound used by `Cell::Set`. -/
theorem invalidate_terminates {t : Table}
    (hclosed : ∀ x d, DepEdge t x d → (t.cellAt d).isSome)
    (hacyc : ∀ x, ¬ Relation.TransGen (DepEdge t) x x) {p : Position}
    (hlive : (t.cellAt p).isSome) :
    ∃ t', InvalidateDependentCellsCache (t.length + 1) t p true = some t' := by
  apply invalidate_terminates_aux hclosed hacyc _ _ _ (SameUpToCache.refl t) hlive
  omega

theorem WellFormed.closed {t : Table} (hw : WellFormed t) (x d : Position)
    (h : DepEdge t x d) : (t.cellAt d).isSome := by
  obtain ⟨c, hc, -⟩ := hw.dep_back x d h
  simp [hc]
/-! ## `SetCell` stays within defined behaviour when no cell has been destroyed -/

theorem Table.modify_succeeds {t : Table} {p : Position} (f : Cell → Cell)
    (h : (t.cellAt p).isSome) :
    ∃ t', t.modify p f = some t' ∧
      (∀ q, (t.cellAt q).isSome → (t'.cellAt q).isSome) ∧
      (∀ q, UMap.find t' q = some none → UMap.find t q = some none) := by
  cases hc : t.cellAt p with
  | none => rw [hc] at h; simp at h
  | some c =>
    refine ⟨UMap.put t p (some (f c)), by simp [Table.modify, hc], ?_, ?_⟩
    · intro q hq
      rw [Table.cellAt_put]
      split_ifs
      · rfl
      · exact hq
    · intro q hq
      rw [UMap.find_put] at hq
      split_ifs at hq
      · simp at hq
      · exact hq

theorem eraseLoop_succeeds (self : Position) :
    ∀ (refs : List Position) (t : Table), (∀ r ∈ refs, (t.cellAt r).isSome) →
      ∃ t', List.foldlM
        (fun t ref_cell => Table.modify t ref_cell (Cell.eraseDependent self)) t refs
        = some t' := by
  intro refs
  induction refs with
  | nil => intro t _; exact ⟨t, by simp [List.foldlM]⟩
  | cons r rest ih =>
    intro t h
    obtain ⟨t1, h1, hl, -⟩ := Table.modify_succeeds (Cell.eraseDependent self) (h r (by simp))
    obtain ⟨t', ht'⟩ := ih t1 (fun x hx => hl x (h x (List.mem_cons_of_mem _ hx)))
    exact ⟨t', by simp [List.foldlM, h1, ht']⟩

theorem link_succeeds {self pos : Position} {s : Sheet} (hself : (s.cells_.cellAt self).isSome)
    (hpos : UMap.find s.cells_ pos ≠ some none) :
    ∃ s', Cell.link self s pos = some s' ∧
      (∀ q, (s.cells_.cellAt q).isSome → (s'.cells_.cellAt q).isSome) ∧
      (∀ q, UMap.find s'.cells_ q = some none → UMap.find s.cells_ q = some none) := by
  -- the sheet after `pos` has been resolved
  have hres : ∃ s1, (match s.cells_.cellAt pos with
        | some _ => some s
        | none => s.SetCellEmpty pos) = some s1 ∧
      (s1.cells_.cellAt pos).isSome ∧
      (∀ q, (s.cells_.cellAt q).isSome → (s1.cells_.cellAt q).isSome) ∧
      (∀ q, UMap.find s1.cells_ q = some none → UMap.find s.cells_ q = some none) := by
    cases hc : s.cells_.cellAt pos with
    | some c => exact ⟨s, rfl, by simp [hc], fun _ h => h, fun _ h => h⟩
    | none =>
      have hf : UMap.find s.cells_ pos = none := by
        unfold Table.cellAt at hc
        rcases hfx : UMap.find s.cells_ pos with _ | _ | c
        · rfl
        · exact absurd hfx hpos
        · rw [hfx] at hc; simp at hc
      refine ⟨{ cells_ := UMap.put s.cells_ pos (some Cell.create)
                row_sizes_ := s.row_sizes_.increment pos.row
                col_sizes_ := s.col_sizes_.increment pos.col },
        by simp [Sheet.SetCellEmpty, hf], ?_, ?_, ?_⟩
      · simp [Table.cellAt_put]
      · intro q hq
        simp only
        rw [Table.cellAt_put]
        split_ifs
        · rfl
        · exact hq
      · intro q hq
        simp only at hq
        rw [UMap.find_put] at hq
        split_ifs at hq
        · simp at hq
        · exact hq
  obtain ⟨s1, h1, hp1, hl1, hn1⟩ := hres
  obtain ⟨t2, h2, hl2, hn2⟩ :=
    Table.modify_succeeds (Cell.insertReferenced pos) (hl1 self hself)
  obtain ⟨t3, h3, hl3, hn3⟩ :=
    Table.modify_succeeds (Cell.insertDependent self) (hl2 pos hp1)
  refine ⟨{ s1 with cells_ := t3 }, ?_, ?_, ?_⟩
  · unfold Cell.link
    rw [h1]
    simp [h2, h3]
  · intro q hq
    exact hl3 q (hl2 q (hl1 q hq))
  · intro q hq
    exact hn1 q (hn2 q (hn3 q hq))

theorem linkLoop_succeeds (self : Position) :
    ∀ (L : List Position) (s : Sheet), (s.cells_.cellAt self).isSome →
      (∀ p ∈ L, UMap.find s.cells_ p ≠ some none) →
      ∃ s', List.foldlM (Cell.link self) s L = some s' := by
  intro L
  induction L with
  | nil => intro s _ _; exact ⟨s, by simp [List.foldlM]⟩
  | cons p rest ih =>
    intro s hself hL
    obtain ⟨s1, h1, hl, hn⟩ := link_succeeds hself (hL p (by simp))
    obtain ⟨s', hs'⟩ := ih s1 (hl self hself)
      (fun x hx hx' => hL x (List.mem_cons_of_mem _ hx) (hn x hx'))
    exact ⟨s', by simp [List.foldlM, h1, hs']⟩

theorem Intact.live_of_find {t : Table} (hi : Intact t) {p : Position}
    (h : (UMap.find t p).isSome) : (t.cellAt p).isSome := by
  unfold Table.cellAt
  rcases hf : UMap.find t p with _ | _ | c
  · rw [hf] at h; simp at h
  · exact absurd hf (hi p)
  · rfl

theorem commit_succeeds {s : Sheet} {self : Position} {this : Cell} {tmp : Impl}
    (hw : WellFormed s.cells_) (hi : Intact s.cells_)
    (hthis : s.cells_.cellAt self = some this)
    (hcirc : Cell.IsCircularDependency s.cells_ self tmp = .ok false) :
    ∃ s', Cell.commit s self this tmp = some s' := by
  obtain ⟨hself, hcheck⟩ := IsCircularDependency_false (by simp [hthis]) hcirc
  -- the first loop
  have hi1 : Intact (UMap.put s.cells_ self (some { this with impl_ := tmp })) :=
    intact_put_some hi _ _
  obtain ⟨t2, h2⟩ := eraseLoop_succeeds self this.referenced_cells_
    (UMap.put s.cells_ self (some { this with impl_ := tmp })) (by
      intro r hr
      apply hi1.live_of_find
      rw [UMap.find_put]
      split_ifs
      · rfl
      · exact hw.ref_present self r ⟨this, hthis, hr⟩)
  have hf2 := eraseLoop_find self _ _ _ h2
  have hi2 : Intact t2 := by
    intro q hq
    rw [hf2 q] at hq
    split_ifs at hq
    · rcases hfx : UMap.find (UMap.put s.cells_ self (some { this with impl_ := tmp })) q
        with _ | _ | c
      · rw [hfx] at hq; simp at hq
      · exact hi1 q hfx
      · rw [hfx] at hq; simp at hq
    · exact hi1 q hq
  have hself2 : (t2.cellAt self).isSome := by
    apply hi2.live_of_find
    rw [hf2 self, UMap.find_put, if_pos rfl]
    split_ifs <;> rfl
  -- `referenced_cells_.clear()`
  obtain ⟨t3, h3, hl3, hn3⟩ := Table.modify_succeeds Cell.clearReferenced hself2
  -- the second loop
  obtain ⟨s4, h4⟩ := linkLoop_succeeds self tmp.GetReferencedCells
    { s with cells_ := t3 } (hl3 self hself2)
    (fun p _ hp => hi2 p (hn3 p hp))
  -- the invalidation
  have hr : Rewired s.cells_ s4.cells_ self this tmp := rewired_of_loops hself h2 h3 h4
  have hw4 := hr.keeps_wellFormed hw hthis hself hcheck
  obtain ⟨cs, hcs, -⟩ := hr.self_cell
  obtain ⟨t5, h5⟩ := invalidate_terminates hw4.closed hw4.acyclic
    (p := self) (by simp [hcs])
  exact ⟨{ s4 with cells_ := t5 }, by simp [Cell.commit, h2, h3, h4, h5]⟩

theorem IsCircularDependency_defined {t : Table} {self : Position} (tmp : Impl)
    (hw : WellFormed t) (hself : (t.cellAt self).isSome) :
    Cell.IsCircularDependency t self tmp ≠ .error .undefined := by
  unfold Cell.IsCircularDependency
  simp only
  split_ifs
  · simp
  · simp
  · obtain ⟨b, hb⟩ := circularLoop_terminates
      (R := tmp.GetReferencedCells.filter (fun pos => (t.cellAt pos).isSome))
      hw.closed hself
    rw [hb]
    simp

theorem Cell.Set_defined (parse : ParseFormula) {s : Sheet} {self : Position}
    (text : String) (hw : WellFormed s.cells_) (hi : Intact s.cells_)
    (hself : (s.cells_.cellAt self).isSome) :
    (Cell.Set parse s self text).1 ≠ .undefined := by
  cases hthis : s.cells_.cellAt self with
  | none => rw [hthis] at hself; simp at hself
  | some this =>
    cases hmk : Cell.makeImpl parse text with
    | none => simp [Cell.Set, hthis, hmk]
    | some tmp =>
      cases hcirc : Cell.IsCircularDependency s.cells_ self tmp with
      | error e =>
        simp only [Cell.Set, hthis, hmk, hcirc]
        intro he
        subst he
        exact IsCircularDependency_defined tmp hw hself hcirc
      | ok b =>
        cases b with
        | true => simp [Cell.Set, hthis, hmk, hcirc]
        | false =>
          obtain ⟨s', hs'⟩ := commit_succeeds hw hi hthis hcirc
          simp [Cell.Set, hthis, hmk, hcirc, hs']

/-- On a well-formed sheet without null slots, `SetCell` returns or throws; it never
dereferences a missing cell and its loops end. -/
theorem SetCell_defined (parse : ParseFormula) {s : Sheet} (pos : Position) (text : String)
    (hw : WellFormed s.cells_) (hi : Intact s.cells_) :
    (s.SetCell parse pos text).1 ≠ .undefined := by
  by_cases hv : pos.IsValid = true
  · obtain ⟨s1, hs1, hres⟩ := SetCell_eq parse s pos text hv
    have h1 : WellFormed s1.cells_ ∧ Intact s1.cells_ ∧ (s1.cells_.cellAt pos).isSome := by
      rcases hs1 with ⟨hf, rfl⟩ | ⟨hf, rfl⟩
      · exact ⟨wellFormed_put_create hw hf, intact_put_some hi _ _,
          by simp [Table.cellAt_put]⟩
      · exact ⟨hw, hi, hi.live_of_find hf⟩
    have h2 := Cell.Set_defined parse text h1.1 h1.2.1 h1.2.2
    rcases hres with ⟨-, h⟩ | ⟨s2, -, h⟩
    · rw [h]; exact h2
    · rw [h]; simp
  · unfold Sheet.SetCell
    simp [hv]
theorem UMap.put_put {κ ν : Type} [DecidableEq κ] (m : UMap κ ν) (k : κ) (v w : ν) :
    UMap.put (UMap.put m k v) k w = UMap.put m k w := by
  induction m with
  | nil => simp [UMap.put]
  | cons e rest ih =>
    obtain ⟨a, b⟩ := e
    by_cases h : a = k
    · simp [UMap.put, h]
    · simp [UMap.put, h, ih]

/-- The helper `SetCellEmpty` is `Sheet::SetCell(pos, "")` at a valid position where
`GetCellPtr` returns null, which is how `Cell::Set` calls it. -/
theorem SetCell_empty_text (parse : ParseFormula) (s : Sheet) (pos : Position)
    (hv : pos.IsValid = true) (hnull : s.cells_.cellAt pos = none) :
    s.SetCell parse pos "" =
      match s.SetCellEmpty pos with
      | some s' => (Outcome.ok, s')
      | none => (Outcome.undefined, s) := by
  rcases hf : UMap.find s.cells_ pos with _ | _ | c
  · have hmk : Cell.makeImpl parse "" = some Impl.EmptyImpl := rfl
    simp [Sheet.SetCell, hv, hf, Cell.Set, Cell.commit, Cell.create, hmk,
      Cell.IsCircularDependency, Impl.GetReferencedCells, Table.modify, Table.cellAt_put,
      UMap.put_put, InvalidateDependentCellsCache, Cell.clearReferenced, Impl.IsCacheValid,
      Impl.InvalidateCache, Sheet.SetCellEmpty, List.foldlM]
  · simp [Sheet.SetCell, hv, hf, Cell.Set, hnull, Sheet.SetCellEmpty]
  · rw [Table.cellAt, hf] at hnull
    simp at hnull

/-! ## The claims -/

theorem Impl.cache_InvalidateCache (i : Impl) : i.InvalidateCache.cache = none := by
  cases i <;> rfl

theorem SetCell_ok_cases {parse : ParseFormula} {s s' : Sheet} {pos : Position}
    {text : String} (h : s.SetCell parse pos text = (.ok, s')) :
    ∃ (s1 : Sheet) (this : Cell) (tmp : Impl) (t4 : Table),
      (∀ q, q ≠ pos → s1.cells_.cellAt q = s.cells_.cellAt q) ∧
      s1.cells_.cellAt pos = some this ∧
      Cell.makeImpl parse text = some tmp ∧
      pos ∉ tmp.GetReferencedCells ∧
      Rewired s1.cells_ t4 pos this tmp ∧
      ResetOn (fun q => Relation.ReflTransGen (DepEdge t4) pos q) t4 s'.cells_ := by
  have hv : pos.IsValid = true := by
    by_contra hv
    unfold Sheet.SetCell at h
    simp [hv] at h
  obtain ⟨s1, hs1, hres⟩ := SetCell_eq parse s pos text hv
  have hs1' : ∀ q, q ≠ pos → s1.cells_.cellAt q = s.cells_.cellAt q := by
    intro q hq
    rcases hs1 with ⟨-, rfl⟩ | ⟨-, rfl⟩
    · simp only
      rw [Table.cellAt_put, if_neg (fun h => hq h.symm)]
    · rfl
  rcases hres with ⟨h1, h2⟩ | ⟨s2, h1, h2⟩
  · rw [← h2, h] at h1
    exact absurd rfl h1
  · rw [h] at h2
    injection h2 with _ h2
    rcases Cell.Set_cases parse s1 pos text with ⟨h3, -⟩ | ⟨this, tmp, s2', h3, h4, h5, h6, h7⟩
    · rw [h1] at h3; exact absurd rfl h3
    · rw [h1] at h7
      injection h7 with _ h7
      subst h7
      have hself := (IsCircularDependency_false (by simp [h3]) h5).1
      obtain ⟨t4, hr, hinv⟩ := commit_rewired hself h6
      have hspec := InvalidateDependentCellsCache_spec _ _ _ _ hinv
      refine ⟨s1, this, tmp, t4, hs1', h3, h4, hself, hr, ?_⟩
      rw [h2]
      exact hspec

/-- C5. Cache invalidation on write: after a successful `SetCell(p, text)`, the cell at `p`
and every cell reachable from `p` along `dependent_cells_` (refs_in), at any depth, hold no
cached value, whatever they held before; every other position keeps its cache state. -/
theorem C5_cache_invalidated_on_write (parse : ParseFormula) (s s' : Sheet) (p : Position)
    (text : String) (h : s.SetCell parse p text = (.ok, s')) :
    (∀ q, Relation.ReflTransGen (DepEdge s'.cells_) p q → s'.cachedValue q = none) ∧
    (∀ q, ¬ Relation.ReflTransGen (DepEdge s'.cells_) p q →
      s'.cachedValue q = s.cachedValue q) := by
  obtain ⟨s1, this, tmp, t4, hs1, hthis, -, hself, hr, hspec⟩ := SetCell_ok_cases h
  have hreach := hspec.same.reach p
  constructor
  · intro q hq
    have h1 := (hspec q).1 ((hreach q).mp hq)
    unfold Sheet.cachedValue Table.cellAt
    rw [h1]
    rcases UMap.find t4 q with _ | _ | c
    · rfl
    · rfl
    · exact Impl.cache_InvalidateCache c.impl_
  · intro q hq
    have h1 := (hspec q).2 (fun h => hq ((hreach q).mpr h))
    have hqp : q ≠ p := by
      intro h
      subst h
      exact hq Relation.ReflTransGen.refl
    have h2 : s'.cells_.cellAt q = t4.cellAt q := by
      unfold Table.cellAt; rw [h1]
    unfold Sheet.cachedValue
    rw [h2, ← hs1 q hqp]
    rcases hr.cases q hqp with ⟨c, c', hc, hc4, himpl, -, -⟩ | ⟨hc, -, -, hc4⟩ | ⟨hc, -, hfind⟩
    · rw [hc, hc4]
      simp [himpl]
    · rw [hc, hc4]
      rfl
    · have : t4.cellAt q = s1.cells_.cellAt q := by unfold Table.cellAt; rw [hfind]
      rw [this]

/-- Witness for C5: `A1 = "1"`, `B1 = "=A1"` with the value of `B1` read and cached; the
write `SetCell(A1, "10")` succeeds and leaves `B1`, which depends on `A1`, without cache. -/
theorem C5_witness :
    (sheetB1refA1.GetValue B1 ⟨5⟩).cachedValue B1 = some ⟨5⟩ ∧
    ((sheetB1refA1.GetValue B1 ⟨5⟩).SetCell sampleParse A1 "10").1 = .ok ∧
    ((∀ q, Relation.ReflTransGen
        (DepEdge ((sheetB1refA1.GetValue B1 ⟨5⟩).SetCell sampleParse A1 "10").2.cells_) A1 q →
        ((sheetB1refA1.GetValue B1 ⟨5⟩).SetCell sampleParse A1 "10").2.cachedValue q = none) ∧
     (∀ q, ¬ Relation.ReflTransGen
        (DepEdge ((sheetB1refA1.GetValue B1 ⟨5⟩).SetCell sampleParse A1 "10").2.cells_) A1 q →
        ((sheetB1refA1.GetValue B1 ⟨5⟩).SetCell sampleParse A1 "10").2.cachedValue q =
          (sheetB1refA1.GetValue B1 ⟨5⟩).cachedValue q)) :=
  ⟨by decide, by decide,
    C5_cache_invalidated_on_write sampleParse (sheetB1refA1.GetValue B1 ⟨5⟩) _ A1 "10"
      (by decide)⟩
/-- C1. Acyclicity: in every state reached from the empty sheet by `SetCell` calls on valid
positions (value reads in between allowed), each call returns or throws without leaving
the defined behaviour, and the graph of `referenced_cells_` (refs_out) has no cycle and no
self-loop. -/
theorem C1_refs_out_acyclic (parse : ParseFormula) (s : Sheet)
    (h : ReachableBySetCell parse s) :
    (∀ p, ¬ Relation.TransGen (RefEdge s.cells_) p p) ∧
    (∀ pos text, (s.SetCell parse pos text).1 ≠ Outcome.undefined) := by
  obtain ⟨hw, hi⟩ := h.invariant
  exact ⟨refEdge_acyclic hw hi, fun pos text => SetCell_defined parse pos text hw hi⟩

/-- Witness for C1: the state after `SetCell(A1, "=B1")` and the rejected
`SetCell(B1, "=A1")`. -/
theorem C1_witness :
    (∀ p, ¬ Relation.TransGen
      (RefEdge (sheetA1refB1.SetCell sampleParse B1 "=A1").2.cells_) p p) ∧
    (∀ pos text, ((sheetA1refB1.SetCell sampleParse B1 "=A1").2.SetCell
      sampleParse pos text).1 ≠ Outcome.undefined) :=
  C1_refs_out_acyclic sampleParse _
    (ReachableBySetCell.SetCell _ B1 "=A1"
      (ReachableBySetCell.SetCell _ A1 "=B1" ReachableBySetCell.empty (by decide))
      (by decide))

/-- C2, at the failing input. After `SetCell(A1, "=B1"); ClearCell(A1)` the cell `A1` is
empty and declares no reference, so `B1 = "=A1"` closes no cycle; yet `SetCell(B1, "=A1")`
throws `CircularDependencyException`, because `Cell::Clear` left the edge `A1 → B1` in place. -/
theorem C2_cleared_cell_still_blocks :
    ((sheetA1refB1.ClearCell A1).2.cells_.cellAt A1).map Cell.GetReferencedCells = some [] ∧
    ((sheetA1refB1.ClearCell A1).2.cells_.cellAt B1).map Cell.GetReferencedCells = some [] ∧
    ((sheetA1refB1.ClearCell A1).2.SetCell sampleParse B1 "=A1").1 =
      Outcome.CircularDependencyException := by
  decide

/-- C3, at the failing input. On the empty sheet `GetCell(A1)` is null; the call
`SetCell(A1, "=A1")` throws `CircularDependencyException` and `SetCell(A1, "=)")` throws the
parser's exception, and after either one the table holds an empty cell at `A1`. -/
theorem C3_failed_SetCell_creates_cell :
    Sheet.empty.cells_.cellAt A1 = none ∧
    Sheet.empty.SetCell sampleParse A1 "=A1" =
      (Outcome.CircularDependencyException, ⟨[(A1, some Cell.create)], [], []⟩) ∧
    Sheet.empty.SetCell sampleParse A1 "=)" =
      (Outcome.FormulaException, ⟨[(A1, some Cell.create)], [], []⟩) := by
  decide

/-- C4. When a cell already exists at `p` and `SetCell(p, text)` fails with
`CircularDependencyException`, the sheet after the call is the sheet before it: every cell
keeps its content, its two edge sets and its cache, and the counters are unchanged. -/
theorem C4_circular_failure_unchanged (parse : ParseFormula) (s : Sheet) (p : Position)
    (text : String) (c : Cell) (hc : s.cells_.cellAt p = some c)
    (hfail : (s.SetCell parse p text).1 = Outcome.CircularDependencyException) :
    (s.SetCell parse p text).2 = s := by
  have hv : p.IsValid = true := by
    by_contra hv
    unfold Sheet.SetCell at hfail
    simp [hv] at hfail
  obtain ⟨s1, hs1, hres⟩ := SetCell_eq parse s p text hv
  have hs : s1 = s := by
    rcases hs1 with ⟨hf, -⟩ | ⟨-, h⟩
    · rw [Table.find_of_cellAt hc] at hf; simp at hf
    · exact h
  subst hs
  rcases hres with ⟨-, h2⟩ | ⟨s2, -, h2⟩
  · rw [h2]
    rcases Cell.Set_cases parse s1 p text with ⟨-, h3⟩ | ⟨_, _, s', -, -, -, -, h3⟩
    · exact h3
    · rw [h2, h3] at hfail
      simp at hfail
  · rw [h2] at hfail
    simp at hfail

/-- Witness for C4: after `SetCell(A1, "=B1")` the call `SetCell(B1, "=A1")` fails with
`CircularDependencyException` and changes nothing: `A1` still reads `"=B1"` and `B1` is
empty. -/
theorem C4_witness :
    sheetA1refB1.cells_.cellAt B1 = some ⟨.EmptyImpl, [], [A1]⟩ ∧
    (sheetA1refB1.SetCell sampleParse B1 "=A1").1 = Outcome.CircularDependencyException ∧
    (sheetA1refB1.SetCell sampleParse B1 "=A1").2 = sheetA1refB1 ∧
    (sheetA1refB1.cells_.cellAt A1).map Cell.GetText = some "=B1" :=
  ⟨by decide, by decide,
    C4_circular_failure_unchanged sampleParse sheetA1refB1 B1 "=A1" ⟨.EmptyImpl, [], [A1]⟩
      (by decide) (by decide),
    by decide⟩

/-- C6, at the failing input. With `C1 = "1"`, `A1 = "=C1"`, `B1 = "=A1"` and the value of
`B1` cached, `ClearCell(A1)` replaces the content of `A1`, which `B1` references, and `B1`
still holds its cached value. -/
theorem C6_cache_survives_ClearCell :
    sheetChain.cachedValue B1 = some ⟨1⟩ ∧
    (sheetChain.cells_.cellAt B1).map Cell.GetReferencedCells = some [A1] ∧
    (sheetChain.cells_.cellAt A1).map Cell.GetText = some "=C1" ∧
    (sheetChain.ClearCell A1).1 = Outcome.ok ∧
    ((sheetChain.ClearCell A1).2.cells_.cellAt A1).map Cell.GetText = some "" ∧
    (sheetChain.ClearCell A1).2.cachedValue B1 = some ⟨1⟩ := by
  decide

/-- C7, at the failing inputs. With `A1 = "1"` and `B1 = "=A1"`, the cell `A1` has `B1`
among its dependents, and `ClearCell(A1)` destroys it while `B1` still lists it as
referenced. With `A1 = "=B1"` alone, no cell references `A1`, and `ClearCell(A1)` keeps the
cell. -/
theorem C7_ClearCell_retention_inverted :
    (sheetB1refA1.cells_.cellAt A1).map Cell.dependent_cells_ = some [B1] ∧
    (sheetB1refA1.ClearCell A1).2.cells_.cellAt A1 = none ∧
    ((sheetB1refA1.ClearCell A1).2.cells_.cellAt B1).map Cell.referenced_cells_ = some [A1] ∧
    (sheetA1refB1.cells_.cellAt A1).map Cell.dependent_cells_ = some [] ∧
    ((sheetA1refB1.ClearCell A1).2.cells_.cellAt A1).isSome = true := by
  decide

/-- C8, at the failing input. After `SetCell(A1, "=B1")` the cell `B1` has `A1` in its
`dependent_cells_` (refs_in) and `IsReferenced()` is false for it, while `A1` has an empty
`dependent_cells_` and `IsReferenced()` is true for it. -/
theorem C8_IsReferenced_reads_refs_out :
    (sheetA1refB1.cells_.cellAt B1).map Cell.dependent_cells_ = some [A1] ∧
    (sheetA1refB1.cells_.cellAt B1).map Cell.IsReferenced = some false ∧
    (sheetA1refB1.cells_.cellAt A1).map Cell.dependent_cells_ = some [] ∧
    (sheetA1refB1.cells_.cellAt A1).map Cell.IsReferenced = some true := by
  decide

/-- C9. Edge symmetry: in every state reached from the empty sheet by `SetCell`,
`ClearCell` and value reads on valid positions that stay within defined behaviour, for all
cells `A` and `B` of the sheet, `B` is in `A.referenced_cells_` exactly when `A` is in
`B.dependent_cells_`. -/
theorem C9_edge_symmetry (parse : ParseFormula) (s : Sheet) (h : Reachable parse s)
    (a b : Position) (ca cb : Cell) (ha : s.cells_.cellAt a = some ca)
    (hb : s.cells_.cellAt b = some cb) :
    b ∈ ca.referenced_cells_ ↔ a ∈ cb.dependent_cells_ := by
  have hw := h.table_wellFormed
  constructor
  · intro hr
    obtain ⟨c, hc, hd⟩ := hw.ref_back a b ⟨ca, ha, hr⟩ (by simp [hb])
    rw [hb] at hc
    injection hc with hc
    subst hc
    exact hd
  · intro hd
    obtain ⟨c, hc, hr⟩ := hw.dep_back b a ⟨cb, hb, hd⟩
    rw [ha] at hc
    injection hc with hc
    subst hc
    exact hr

/-- Witness for C9: the state after `SetCell(A1, "=B1"); ClearCell(A1)`, where the cleared
cell `A1` and its former input `B1` still hold the edge in both directions. -/
theorem C9_witness :
    B1 ∈ (⟨.EmptyImpl, [B1], []⟩ : Cell).referenced_cells_ ↔
      A1 ∈ (⟨.EmptyImpl, [], [A1]⟩ : Cell).dependent_cells_ :=
  C9_edge_symmetry sampleParse (sheetA1refB1.ClearCell A1).2
    (Reachable.call _ (Call.ClearCell A1)
      (Reachable.call _ (Call.SetCell A1 "=B1") Reachable.empty (by decide) (by decide))
      (by decide) (by decide))
    A1 B1 ⟨.EmptyImpl, [B1], []⟩ ⟨.EmptyImpl, [], [A1]⟩ (by decide) (by decide)

/-- C10, at the failing input. After `SetCell(A1, "=B1"); ClearCell(A1)` the cell `A1` has
empty content, yet its `referenced_cells_` still holds `B1` and `B1` still lists `A1` among
its dependents. -/
theorem C10_cleared_formula_keeps_edges :
    ((sheetA1refB1.ClearCell A1).2.cells_.cellAt A1).map Cell.impl_ = some Impl.EmptyImpl ∧
    ((sheetA1refB1.ClearCell A1).2.cells_.cellAt A1).map Cell.referenced_cells_ =
      some [B1] ∧
    ((sheetA1refB1.ClearCell A1).2.cells_.cellAt B1).map Cell.dependent_cells_ =
      some [A1] := by
  decide

/-! ## Printing -/

theorem String.push_eq_append (s : String) (c : Char) : s.push c = s ++ String.mk [c] := by
  apply String.ext
  simp [String.data_push, String.data_append]

theorem joinWithTab_cons_cons (a b : String) (rest : List String) :
    joinWithTab (a :: b :: rest) = a ++ String.mk [Char.ofNat 9] ++ joinWithTab (b :: rest) := rfl

theorem printRow_step (s : Sheet) (cols : Int) (row : Nat) :
    ∀ (k a : Nat) (output : String), (k ≠ 0 → ((a + k : Nat) : Int) = cols) →
      (List.range' a k).foldl
        (fun (output : String) (col : Nat) =>
          let output :=
            match s.cells_.cellAt ⟨(row : Int), (col : Int)⟩ with
            | some c => output ++ c.GetText
            | none => output
          if (col : Int) < cols - 1 then output.push (Char.ofNat 9) else output)
        output
      = output ++ joinWithTab ((List.range' a k).map (s.slotText row)) := by
  intro k
  induction k with
  | zero => intro a output _; simp [joinWithTab]
  | succ k ih =>
    intro a output h
    have hcols := h (by simp)
    have hslot : (match s.cells_.cellAt ⟨(row : Int), (a : Int)⟩ with
        | some c => output ++ c.GetText
        | none => output) = output ++ s.slotText row a := by
      unfold Sheet.slotText
      cases s.cells_.cellAt ⟨(row : Int), (a : Int)⟩ <;> simp
    simp only [List.range'_succ, List.foldl_cons, List.map_cons, hslot]
    cases k with
    | zero =>
      have : ¬ ((a : Int) < cols - 1) := by omega
      simp [this, joinWithTab]
    | succ k =>
      have hlt : (a : Int) < cols - 1 := by push_cast at hcols; omega
      rw [if_pos hlt, ih (a + 1) _ (fun _ => by rw [← hcols]; congr 1; omega)]
      simp only [List.range'_succ, List.map_cons, joinWithTab_cons_cons,
        String.push_eq_append, String.append_assoc]

theorem printRow_eq (s : Sheet) (cols : Int) (row : Nat) (output : String) :
    s.printRow cols (row : Int) output =
      output ++ joinWithTab ((List.range cols.toNat).map (s.slotText row)) := by
  unfold Sheet.printRow
  rw [List.range_eq_range']
  apply printRow_step
  intro h
  have : 0 < cols := by
    by_contra hc
    exact h (Int.toNat_eq_zero.mpr (by omega))
  rw [Nat.zero_add, Int.toNat_of_nonneg (le_of_lt this)]

theorem foldl_append_eq_join (f : Nat → String) :
    ∀ (l : List Nat) (output : String),
      l.foldl (fun (output : String) (row : Nat) => output ++ f row) output =
        output ++ String.join (l.map f) := by
  have hjoin : ∀ (l : List String) (acc : String),
      List.foldl (fun r s => r ++ s) acc l = acc ++ String.join l := by
    intro l
    induction l with
    | nil => intro acc; simp [String.join]
    | cons a rest ih =>
      intro acc
      simp only [List.foldl_cons, String.join]
      rw [ih, ih]
      simp [String.append_assoc]
  intro l
  induction l with
  | nil => intro output; simp [String.join]
  | cons a rest ih =>
    intro output
    simp only [List.foldl_cons, List.map_cons]
    rw [ih]
    have : String.join (f a :: List.map f rest) = f a ++ String.join (List.map f rest) := by
      simp only [String.join, List.foldl_cons]
      rw [hjoin, hjoin]
      simp [String.append_assoc]
    rw [this, String.append_assoc]

theorem joinWithTab_tabs (l : List String) :
    (joinWithTab l).data.count (Char.ofNat 9) =
      (l.map fun x => x.data.count (Char.ofNat 9)).sum + (l.length - 1) := by
  induction l with
  | nil => simp [joinWithTab]
  | cons a rest ih =>
    cases rest with
    | nil => simp [joinWithTab]
    | cons b rest =>
      rw [joinWithTab_cons_cons]
      simp only [String.data_append, List.count_append, ih, List.map_cons, List.sum_cons,
        List.length_cons]
      simp only [List.count_singleton_self]
      omega

/-! ## Writing a text -/

theorem makeImpl_text (parse : ParseFormula) {text : String}
    (htext : text.data.head? ≠ some FORMULA_SIGN) :
    Cell.makeImpl parse text =
      some (if text.data.isEmpty then Impl.EmptyImpl else Impl.TextImpl text) := by
  unfold Cell.makeImpl
  by_cases he : text.data.isEmpty = true
  · simp [he]
  · simp [he, htext]

theorem textImpl_no_refs (text : String) :
    (if text.data.isEmpty then Impl.EmptyImpl else Impl.TextImpl text).GetReferencedCells
      = [] := by
  split_ifs <;> rfl

theorem IsCircularDependency_no_refs (t : Table) (self : Position) {tmp : Impl}
    (h : tmp.GetReferencedCells = []) :
    Cell.IsCircularDependency t self tmp = .ok false := by
  unfold Cell.IsCircularDependency
  simp [h]

/-- The commit of `Cell::Set` completes on a well-formed table when the cells this cell
referenced are still there and no new reference points at a null slot. -/
theorem commit_succeeds_of_live {s : Sheet} {self : Position} {this : Cell} {tmp : Impl}
    (hw : WellFormed s.cells_) (hthis : s.cells_.cellAt self = some this)
    (hcirc : Cell.IsCircularDependency s.cells_ self tmp = .ok false)
    (hrefs : ∀ r ∈ this.referenced_cells_, (s.cells_.cellAt r).isSome)
    (hR : ∀ p ∈ tmp.GetReferencedCells, UMap.find s.cells_ p ≠ some none) :
    ∃ s', Cell.commit s self this tmp = some s' := by
  obtain ⟨hself, hcheck⟩ := IsCircularDependency_false (by simp [hthis]) hcirc
  obtain ⟨t2, h2⟩ := eraseLoop_succeeds self this.referenced_cells_
    (UMap.put s.cells_ self (some { this with impl_ := tmp })) (by
      intro r hr
      rw [Table.cellAt_put]
      split_ifs
      · rfl
      · exact hrefs r hr)
  have hf2 := eraseLoop_find self _ _ _ h2
  have hself2 : (t2.cellAt self).isSome := by
    unfold Table.cellAt
    rw [hf2 self, UMap.find_put, if_pos rfl]
    split_ifs <;> rfl
  obtain ⟨t3, h3, hl3, hn3⟩ := Table.modify_succeeds Cell.clearReferenced hself2
  have hnull : ∀ p ∈ tmp.GetReferencedCells, UMap.find t3 p ≠ some none := by
    intro p hp hp3
    have hp2 := hn3 p hp3
    rw [hf2 p, UMap.find_put] at hp2
    have hps : ¬ self = p := fun h => hself (h ▸ hp)
    rw [if_neg hps] at hp2
    apply hR p hp
    split_ifs at hp2
    · rcases hfx : UMap.find s.cells_ p with _ | _ | c
      · rw [hfx] at hp2; simp at hp2
      · rfl
      · rw [hfx] at hp2; simp at hp2
    · exact hp2
  obtain ⟨s4, h4⟩ := linkLoop_succeeds self tmp.GetReferencedCells
    { s with cells_ := t3 } (hl3 self hself2) hnull
  have hr : Rewired s.cells_ s4.cells_ self this tmp := rewired_of_loops hself h2 h3 h4
  have hw4 := hr.keeps_wellFormed hw hthis hself hcheck
  obtain ⟨cs, hcs, -⟩ := hr.self_cell
  obtain ⟨t5, h5⟩ := invalidate_terminates hw4.closed hw4.acyclic
    (p := self) (by simp [hcs])
  exact ⟨{ s4 with cells_ := t5 }, by simp [Cell.commit, h2, h3, h4, h5]⟩

theorem Cell.Set_text (parse : ParseFormula) (s : Sheet) (self : Position) {text : String}
    (htext : text.data.head? ≠ some FORMULA_SIGN) :
    Cell.Set parse s self text =
      match s.cells_.cellAt self with
      | none => (Outcome.undefined, s)
      | some this =>
        match Cell.commit s self this
            (if text.data.isEmpty then Impl.EmptyImpl else Impl.TextImpl text) with
        | none => (Outcome.undefined, s)
        | some s1 => (Outcome.ok, s1) := by
  unfold Cell.Set
  cases s.cells_.cellAt self with
  | none => rfl
  | some this =>
    simp only [makeImpl_text parse htext,
      IsCircularDependency_no_refs _ _ (textImpl_no_refs text)]

theorem Cell.Set_text_outcome (parse : ParseFormula) (s : Sheet) (self : Position)
    {text : String} (htext : text.data.head? ≠ some FORMULA_SIGN) :
    (Cell.Set parse s self text).1 = .ok ∨ (Cell.Set parse s self text).1 = .undefined := by
  rw [Cell.Set_text parse s self htext]
  cases s.cells_.cellAt self with
  | none => right; rfl
  | some this =>
    simp only
    cases Cell.commit s self this
        (if text.data.isEmpty then Impl.EmptyImpl else Impl.TextImpl text) with
    | none => right; rfl
    | some s1 => left; rfl

theorem Impl.text_round_trip (text : String) (v : FormulaValue) :
    (if text.data.isEmpty then Impl.EmptyImpl else Impl.TextImpl text).InvalidateCache.GetText
        = text ∧
      ((if text.data.isEmpty then Impl.EmptyImpl
          else Impl.TextImpl text).InvalidateCache.GetValue v).1 = Value.text (unescaped text) := by
  by_cases he : text.data.isEmpty = true
  · have h0 : text.data = [] := List.isEmpty_iff.mp he
    have h1 : text = "" := String.ext h0
    subst h1
    refine ⟨rfl, ?_⟩
    simp [Impl.InvalidateCache, Impl.GetValue, unescaped]
  · simp only [he]
    exact ⟨rfl, rfl⟩

/-- Text round trip where the write returns: for a valid position `p` and a text that does
not start with `=`, `SetCell(p, text)` never throws; whenever it returns, the cell at `p`
has `GetText() = text` and `GetValue()` equal to the text without one leading apostrophe,
if it has one; and it does return on every well-formed sheet where the slot of `p` is
absent or holds a cell whose referenced cells all exist. -/
theorem SetCell_text_round_trip (parse : ParseFormula) (s : Sheet) (p : Position) (text : String)
    (hv : p.IsValid = true) (htext : text.data.head? ≠ some FORMULA_SIGN) :
    ((s.SetCell parse p text).1 = Outcome.ok ∨
      (s.SetCell parse p text).1 = Outcome.undefined) ∧
    ((s.SetCell parse p text).1 = Outcome.ok →
      ∃ c, (s.SetCell parse p text).2.cells_.cellAt p = some c ∧ c.GetText = text ∧
        ∀ v, c.GetValue v = Value.text (unescaped text)) ∧
    (WellFormed s.cells_ → UMap.find s.cells_ p ≠ some none →
      (∀ c, s.cells_.cellAt p = some c →
        ∀ r ∈ c.referenced_cells_, (s.cells_.cellAt r).isSome) →
      (s.SetCell parse p text).1 = Outcome.ok) := by
  obtain ⟨s1, hs1, hres⟩ := SetCell_eq parse s p text hv
  refine ⟨?_, ?_, ?_⟩
  · rcases hres with ⟨-, h⟩ | ⟨s2, -, h⟩
    · rw [h]; exact Cell.Set_text_outcome parse s1 p htext
    · left; rw [h]
  · intro hok
    have hpair : s.SetCell parse p text = (Outcome.ok, (s.SetCell parse p text).2) := by
      rw [← hok]
    obtain ⟨s1', this, tmp, t4, -, -, hmk, -, hr, hspec⟩ := SetCell_ok_cases hpair
    rw [makeImpl_text parse htext] at hmk
    injection hmk with hmk
    obtain ⟨cs, hcs, himpl, -, -⟩ := hr.self_cell
    have hfind := (hspec p).1 Relation.ReflTransGen.refl
    refine ⟨cs.invalidated, ?_, ?_, ?_⟩
    · unfold Table.cellAt
      rw [hfind, Table.find_of_cellAt hcs]
      rfl
    · show cs.impl_.InvalidateCache.GetText = text
      rw [himpl, ← hmk]
      exact (Impl.text_round_trip text ⟨0⟩).1
    · intro v
      show (cs.impl_.InvalidateCache.GetValue v).1 = _
      rw [himpl, ← hmk]
      exact (Impl.text_round_trip text v).2
  · intro hw hnull hrefs
    have h1 : WellFormed s1.cells_ ∧ ∃ this, s1.cells_.cellAt p = some this ∧
        ∀ r ∈ this.referenced_cells_, (s1.cells_.cellAt r).isSome := by
      rcases hs1 with ⟨hf, rfl⟩ | ⟨hf, rfl⟩
      · refine ⟨wellFormed_put_create hw hf, Cell.create, by simp [Table.cellAt_put], ?_⟩
        intro r hr
        simp [Cell.create] at hr
      · refine ⟨hw, ?_⟩
        rcases hfx : UMap.find s1.cells_ p with _ | _ | c
        · rw [hfx] at hf; simp at hf
        · exact absurd hfx hnull
        · have hc : s1.cells_.cellAt p = some c := by unfold Table.cellAt; rw [hfx]; rfl
          exact ⟨c, hc, hrefs c hc⟩
    obtain ⟨hw1, this, hthis, hlive⟩ := h1
    have hcirc : Cell.IsCircularDependency s1.cells_ p
        (if text.data.isEmpty then Impl.EmptyImpl else Impl.TextImpl text) = Except.ok false :=
      IsCircularDependency_no_refs _ _ (textImpl_no_refs text)
    obtain ⟨s', hs'⟩ := commit_succeeds_of_live hw1 hthis hcirc hlive
      (by rw [textImpl_no_refs]; simp)
    have hset : (Cell.Set parse s1 p text).1 = Outcome.ok := by
      rw [Cell.Set_text parse s1 p htext, hthis]
      simp only [hs']
    rcases hres with ⟨hne, -⟩ | ⟨s2, -, h⟩
    · exact absurd hset hne
    · rw [h]

/-- The round trip on the sheet holding `A1 = "=B1"`: writing an apostrophe followed by
`=literal` to `B1` returns; the text of `B1` is then that string and its value `=literal`. -/
theorem SetCell_text_round_trip_example :
    (sheetA1refB1.SetCell sampleParse B1 escapedLiteral).1 = Outcome.ok ∧
    unescaped escapedLiteral = "=literal" ∧
    ((sheetA1refB1.SetCell sampleParse B1 escapedLiteral).1 = Outcome.ok ∨
      (sheetA1refB1.SetCell sampleParse B1 escapedLiteral).1 = Outcome.undefined) ∧
    ((sheetA1refB1.SetCell sampleParse B1 escapedLiteral).1 = Outcome.ok →
      ∃ c, (sheetA1refB1.SetCell sampleParse B1 escapedLiteral).2.cells_.cellAt B1 = some c ∧
        c.GetText = escapedLiteral ∧ ∀ v, c.GetValue v = Value.text (unescaped escapedLiteral)) ∧
    (WellFormed sheetA1refB1.cells_ → UMap.find sheetA1refB1.cells_ B1 ≠ some none →
      (∀ c, sheetA1refB1.cells_.cellAt B1 = some c →
        ∀ r ∈ c.referenced_cells_, (sheetA1refB1.cells_.cellAt r).isSome) →
      (sheetA1refB1.SetCell sampleParse B1 escapedLiteral).1 = Outcome.ok) :=
  ⟨by decide, by decide,
    SetCell_text_round_trip sampleParse sheetA1refB1 B1 escapedLiteral (by decide) (by decide)⟩

/-! ## The claims, continued -/

/-- C11, at the failing input. The state after `SetCell(A1, "1"); SetCell(B1, "=A1");
ClearCell(A1)` is reachable and `B1` holds a cell in it, yet `ClearCell` has destroyed `A1`
while `B1` still lists it as referenced. The write `SetCell(B1, "x")` of a text that does
not start with `=` then erases `B1` from the dependents of the destroyed cell: it leaves
the defined behaviour instead of returning with `GetText() = "x"`. -/
theorem C11_text_write_over_destroyed_reference :
    Reachable sampleParse (sheetB1refA1.ClearCell A1).2 ∧
    B1.IsValid = true ∧
    ("x" : String).data.head? ≠ some FORMULA_SIGN ∧
    ((sheetB1refA1.ClearCell A1).2.cells_.cellAt B1).map Cell.GetText = some "=A1" ∧
    ((sheetB1refA1.ClearCell A1).2.cells_.cellAt B1).map Cell.referenced_cells_ =
      some [A1] ∧
    (sheetB1refA1.ClearCell A1).2.cells_.cellAt A1 = none ∧
    ((sheetB1refA1.ClearCell A1).2.SetCell sampleParse B1 "x").1 = Outcome.undefined :=
  ⟨Reachable.call _ (Call.ClearCell A1)
      (Reachable.call _ (Call.SetCell B1 "=A1")
        (Reachable.call _ (Call.SetCell A1 "1") Reachable.empty (by decide) (by decide))
        (by decide) (by decide))
      (by decide) (by decide),
    by decide, by decide, by decide, by decide, by decide, by decide⟩

/-- C12. Content classification by `Cell::Set`: the candidate is Empty exactly for the
empty text; a text of length at least 2 that starts with `=` goes to the constructor of
`FormulaImpl`, whose result is a formula content or the parser's exception, and no other
text yields a formula; every remaining text becomes Text. The one-character text `=`
becomes Text whatever the parser does, reading back as `=` in `GetText` and `GetValue`, and
a text that starts with an apostrophe is Text. -/
theorem C12_content_classification (parse : ParseFormula) (text : String) :
    (Cell.makeImpl parse text = some Impl.EmptyImpl ↔ text = "") ∧
    (2 ≤ text.length ∧ text.data.head? = some FORMULA_SIGN →
      Cell.makeImpl parse text =
        (parse (String.mk (text.data.drop 1))).map (fun f => Impl.FormulaImpl f none)) ∧
    ((∃ f cache, Cell.makeImpl parse text = some (Impl.FormulaImpl f cache)) →
      2 ≤ text.length ∧ text.data.head? = some FORMULA_SIGN) ∧
    (text ≠ "" → ¬ (2 ≤ text.length ∧ text.data.head? = some FORMULA_SIGN) →
      Cell.makeImpl parse text = some (Impl.TextImpl text)) ∧
    (Cell.makeImpl parse (String.mk [FORMULA_SIGN]) =
        some (Impl.TextImpl (String.mk [FORMULA_SIGN])) ∧
      (Impl.TextImpl (String.mk [FORMULA_SIGN])).GetText = "=" ∧
      ∀ v, ((Impl.TextImpl (String.mk [FORMULA_SIGN])).GetValue v).1 = Value.text "=") ∧
    (text.data.head? = some ESCAPE_SIGN →
      Cell.makeImpl parse text = some (Impl.TextImpl text)) := by
  have hlen : text.length = text.data.length := rfl
  have hempty : text.data.isEmpty = true ↔ text = "" := by
    constructor
    · intro h
      exact String.ext (List.isEmpty_iff.mp h)
    · intro h
      subst h
      rfl
  refine ⟨?_, ?_, ?_, ?_, ⟨rfl, by decide, fun _ => rfl⟩, ?_⟩
  · constructor
    · intro h
      by_contra hne
      have he : ¬ text.data.isEmpty = true := fun h => hne (hempty.mp h)
      unfold Cell.makeImpl at h
      rw [if_neg he] at h
      split_ifs at h
      · cases hp : parse (String.mk (text.data.drop 1)) with
        | none => rw [hp] at h; simp at h
        | some f => rw [hp] at h; simp at h
      · simp at h
    · intro h
      subst h
      rfl
  · rintro ⟨h2, hh⟩
    have he : ¬ text.data.isEmpty = true := by
      intro h
      rw [List.isEmpty_iff.mp h] at hh
      simp at hh
    unfold Cell.makeImpl
    rw [if_neg he]
    have hgt : text.data.length > 1 := by rw [← hlen]; omega
    have hc : (decide (text.data.length > 1) &&
        decide (text.data.head? = some FORMULA_SIGN)) = true := by
      simp only [Bool.and_eq_true, decide_eq_true_eq]
      exact ⟨hgt, hh⟩
    rw [if_pos hc]
  · rintro ⟨f, cache, h⟩
    unfold Cell.makeImpl at h
    split_ifs at h with h1 h2
    · simp at h
    · simp only [Bool.and_eq_true, decide_eq_true_eq] at h2
      exact ⟨by rw [hlen]; omega, h2.2⟩
    · simp at h
  · intro hne hnot
    have he : ¬ text.data.isEmpty = true := fun h => hne (hempty.mp h)
    unfold Cell.makeImpl
    rw [if_neg he]
    split_ifs with h2
    · simp only [Bool.and_eq_true, decide_eq_true_eq] at h2
      exact absurd ⟨by rw [hlen]; omega, h2.2⟩ hnot
    · rfl
  · intro hh
    have hne : text.data.head? ≠ some FORMULA_SIGN := by
      rw [hh]
      decide
    have he : ¬ text.data.isEmpty = true := by
      intro h
      rw [List.isEmpty_iff.mp h] at hh
      simp at hh
    rw [makeImpl_text parse hne, if_neg he]

/-- C13, at the failing input. With `A1 = "a"` and `A2 = "b"`, one `ClearCell(A1)` leaves
the printable size `(2,1)`; a second `ClearCell(A1)` changes no cell and brings the
printable size to `(2,0)`, although `A2` still reads `"b"`. -/
theorem C13_second_clear_changes_size :
    (sheetColumn.ClearCell A1).2.GetPrintableSize = ⟨2, 1⟩ ∧
    ((sheetColumn.ClearCell A1).2.ClearCell A1).1 = Outcome.ok ∧
    ((sheetColumn.ClearCell A1).2.ClearCell A1).2.cells_ = (sheetColumn.ClearCell A1).2.cells_ ∧
    ((sheetColumn.ClearCell A1).2.ClearCell A1).2.GetPrintableSize = ⟨2, 0⟩ ∧
    (((sheetColumn.ClearCell A1).2.ClearCell A1).2.cells_.cellAt A2).map Cell.GetText
      = some "b" := by
  decide

/-- C14. For a position that is not valid, `SetCell`, `GetCell` and `ClearCell` each fail
with `InvalidPositionException` and leave the cell table and both counters as they were. -/
theorem C14_invalid_position (parse : ParseFormula) (s : Sheet) (pos : Position)
    (text : String) (h : pos.IsValid = false) :
    s.SetCell parse pos text = (Outcome.InvalidPositionException, s) ∧
    s.GetCell pos = Except.error Outcome.InvalidPositionException ∧
    s.ClearCell pos = (Outcome.InvalidPositionException, s) := by
  refine ⟨?_, ?_, ?_⟩
  · simp [Sheet.SetCell, h]
  · simp [Sheet.GetCell, Sheet.GetCellPtr, h]
  · simp [Sheet.ClearCell, h]

/-- Witness for C14: the position `(-1, 0)` on the sheet holding `A1 = "a"`. -/
theorem C14_witness :
    sheetA1text.SetCell sampleParse ⟨-1, 0⟩ "x" =
      (Outcome.InvalidPositionException, sheetA1text) ∧
    sheetA1text.GetCell ⟨-1, 0⟩ = Except.error Outcome.InvalidPositionException ∧
    sheetA1text.ClearCell ⟨-1, 0⟩ = (Outcome.InvalidPositionException, sheetA1text) :=
  C14_invalid_position sampleParse sheetA1text ⟨-1, 0⟩ "x" (by decide)

/-- C15, at the failing input. After `SetCell(A1, "a"); ClearCell(B1)`, where `B1` never
held a cell, `A1` still reads `"a"` and the printable size is `(0,1)`: row `0` lies outside
the printable region. -/
theorem C15_content_outside_printable :
    ((sheetA1text.ClearCell B1).2.cells_.cellAt A1).map Cell.GetText = some "a" ∧
    (sheetA1text.ClearCell B1).2.GetPrintableSize = ⟨0, 1⟩ ∧
    ¬ (A1.row < (sheetA1text.ClearCell B1).2.GetPrintableSize.rows) := by
  decide

/-- C16, at the failing inputs. After `SetCell(A1, "a"); SetCell(A1, "x"); ClearCell(A1)`
no cell is left and the printable size is `(1,1)`; after `SetCell(A1, "=B1"); ClearCell(A1)`
both cells are empty and the printable size is `(1,2)`. -/
theorem C16_printable_size_not_reset :
    ((sheetA1text.SetCell sampleParse A1 "x").2.ClearCell A1).2.cells_ = [(A1, none)] ∧
    ((sheetA1text.SetCell sampleParse A1 "x").2.ClearCell A1).2.GetPrintableSize = ⟨1, 1⟩ ∧
    ((sheetA1refB1.ClearCell A1).2.cells_.cellAt A1).map Cell.GetText = some "" ∧
    ((sheetA1refB1.ClearCell A1).2.cells_.cellAt B1).map Cell.GetText = some "" ∧
    (sheetA1refB1.ClearCell A1).2.cells_.length = 2 ∧
    (sheetA1refB1.ClearCell A1).2.GetPrintableSize = ⟨1, 2⟩ := by
  decide

/-- C17. Output format of `PrintTexts`: with printable size `(R, C)`, the characters written
are, for each row `0 .. R-1` in increasing order, the `C` slot strings of the row joined by
a single tab and followed by one newline, a slot string being the text of the cell there or
empty when there is no cell. So a row holds, beyond the tabs of its texts, `C - 1`
separator tabs (none when `C = 0`) and no trailing tab, and nothing is written when
`R = 0`. -/
theorem C17_PrintTexts_format (s : Sheet) :
    s.PrintTexts = s.printedTextsSpec ∧
    (∀ row : Nat,
      (joinWithTab ((List.range s.GetPrintableSize.cols.toNat).map
        (s.slotText row))).data.count (Char.ofNat 9) =
      ((List.range s.GetPrintableSize.cols.toNat).map fun col =>
        (s.slotText row col).data.count (Char.ofNat 9)).sum
        + (s.GetPrintableSize.cols.toNat - 1)) ∧
    (s.GetPrintableSize.rows = 0 → s.PrintTexts = "") := by
  have h1 : s.PrintTexts = s.printedTextsSpec := by
    unfold Sheet.PrintTexts Sheet.printedTextsSpec
    simp only [printRow_eq, String.push_eq_append, String.append_assoc]
    rw [foldl_append_eq_join]
    simp
  refine ⟨h1, ?_, ?_⟩
  · intro row
    rw [joinWithTab_tabs, List.map_map, List.length_map, List.length_range]
    rfl
  · intro h
    rw [h1]
    unfold Sheet.printedTextsSpec
    rw [h]
    rfl

/-- C18, at the failing input. After `SetCell(A1, "a"); ClearCell(A1)` the key `A1` stays
in the table with a null pointer: `GetCell(A1)` is null, `SetCell(A1, "y")` does not take
its creating branch and dereferences the null pointer, and so does the `SetCell(A1, "")`
that `SetCell(B1, "=A1")` makes for the referenced position. -/
theorem C18_cleared_position_not_writable :
    UMap.find sheetA1cleared.cells_ A1 = some none ∧
    sheetA1cleared.cells_.cellAt A1 = none ∧
    (sheetA1cleared.SetCell sampleParse A1 "y").1 = Outcome.undefined ∧
    (sheetA1cleared.SetCell sampleParse B1 "=A1").1 = Outcome.undefined := by
  decide

/-- C19. Correctness of the cycle-detection traversal: on every table whose
`dependent_cells_` name cells of the table, cyclic or not, for the cell at `self` and a
candidate whose referenced positions are valid, `IsCircularDependency` returns, and it
returns true exactly when some referenced position holds a cell that is `self` or is
reachable from `self` along `dependent_cells_`; so it returns false when no referenced
position holds a cell. -/
theorem C19_traversal_correct (t : Table) (self : Position) (tmp : Impl)
    (hclosed : ∀ x d, DepEdge t x d → (t.cellAt d).isSome)
    (hself : (t.cellAt self).isSome)
    (hvalid : ∀ pos ∈ tmp.GetReferencedCells, pos.IsValid = true) :
    ∃ b, Cell.IsCircularDependency t self tmp = Except.ok b ∧
      (b = true ↔ ∃ r ∈ tmp.GetReferencedCells, (t.cellAt r).isSome ∧
        Relation.ReflTransGen (DepEdge t) self r) ∧
      ((∀ r ∈ tmp.GetReferencedCells, t.cellAt r = none) → b = false) := by
  have hmain : ∃ b, Cell.IsCircularDependency t self tmp = Except.ok b ∧
      (b = true ↔ ∃ r ∈ tmp.GetReferencedCells, (t.cellAt r).isSome ∧
        Relation.ReflTransGen (DepEdge t) self r) := by
    unfold Cell.IsCircularDependency
    simp only
    by_cases hR : tmp.GetReferencedCells.isEmpty = true
    · rw [if_pos hR]
      refine ⟨false, rfl, ?_⟩
      rw [List.isEmpty_iff.mp hR]
      simp
    · rw [if_neg hR]
      have hany : ¬ (tmp.GetReferencedCells.any (fun pos => !pos.IsValid)) = true := by
        simp only [List.any_eq_true, not_exists, not_and]
        intro pos hpos
        simp [hvalid pos hpos]
      rw [if_neg hany]
      obtain ⟨b, hb⟩ := circularLoop_terminates
        (R := tmp.GetReferencedCells.filter (fun pos => (t.cellAt pos).isSome))
        hclosed hself
      rw [hb]
      refine ⟨b, rfl, ?_⟩
      rw [circularLoop_iff hb]
      constructor
      · rintro ⟨r, hr, hp⟩
        obtain ⟨h1, h2⟩ := List.mem_filter.mp hr
        exact ⟨r, h1, h2, hp⟩
      · rintro ⟨r, h1, h2, hp⟩
        exact ⟨r, List.mem_filter.mpr ⟨h1, h2⟩, hp⟩
  obtain ⟨b, hb, hiff⟩ := hmain
  refine ⟨b, hb, hiff, ?_⟩
  intro hnone
  cases b with
  | false => rfl
  | true =>
    obtain ⟨r, hr, hlive, -⟩ := hiff.mp rfl
    rw [hnone r hr] at hlive
    simp at hlive

theorem cyclicTable_closed (x d : Position) (h : DepEdge cyclicTable x d) :
    (cyclicTable.cellAt d).isSome = true := by
  obtain ⟨c, hc, hd⟩ := h
  simp only [cyclicTable, Table.cellAt, UMap.find] at hc
  split_ifs at hc with h1 h2 h3
  · simp at hc; subst hc; simp at hd; subst hd; decide
  · simp at hc; subst hc; simp at hd; subst hd; decide
  · simp at hc; subst hc; simp at hd
  · simp at hc

/-- Witness for C19: on a table whose dependents form the cycle `A1 → B1 → A1`, the
traversal from `A1` for a candidate that references `C1` returns false, and for one that
references `B1` it returns true. -/
theorem C19_witness :
    Cell.IsCircularDependency cyclicTable A1 (Impl.FormulaImpl ⟨"C1", [C1]⟩ none)
      = Except.ok false ∧
    Cell.IsCircularDependency cyclicTable A1 (Impl.FormulaImpl ⟨"B1", [B1]⟩ none)
      = Except.ok true ∧
    ∃ b, Cell.IsCircularDependency cyclicTable A1 (Impl.FormulaImpl ⟨"C1", [C1]⟩ none)
        = Except.ok b ∧
      (b = true ↔ ∃ r ∈ (Impl.FormulaImpl ⟨"C1", [C1]⟩ none).GetReferencedCells,
        (cyclicTable.cellAt r).isSome ∧
        Relation.ReflTransGen (DepEdge cyclicTable) A1 r) ∧
      ((∀ r ∈ (Impl.FormulaImpl ⟨"C1", [C1]⟩ none).GetReferencedCells,
        cyclicTable.cellAt r = none) → b = false) :=
  ⟨rfl, rfl,
    C19_traversal_correct cyclicTable A1 (Impl.FormulaImpl ⟨"C1", [C1]⟩ none)
      cyclicTable_closed (by decide) (by decide)⟩

/-- C20, at the failing input. After `SetCell(A1, "a"); ClearCell(B1)`, where `B1` never
held a cell, the row counters are empty and the column counters are not: the printable
size is `(0,1)`. -/
theorem C20_degenerate_printable_size :
    (sheetA1text.ClearCell B1).1 = Outcome.ok ∧
    (sheetA1text.ClearCell B1).2.row_sizes_ = [] ∧
    (sheetA1text.ClearCell B1).2.col_sizes_ = [(0, 1)] ∧
    (sheetA1text.ClearCell B1).2.GetPrintableSize.rows = 0 ∧
    (sheetA1text.ClearCell B1).2.GetPrintableSize.cols = 1 := by
  decide
end Spreadsheet
